import Mathlib

/-!
# cm4all-lukko: SSH packet padding, the packet serializer and the delegated-open helper

A shallow embedding of `src/ssh/Protocol.hxx` (`Padding`, `MAX_PACKET_SIZE`),
`src/ssh/Serializer.hxx` (class `Serializer`), `src/key/ECDSAKey.cxx`
(`SerializePublic`) and `src/DelegateOpen.cxx` (`OpenFunction`).

Conventions of the embedding:

* `std::size_t` values are natural numbers; a subtraction or addition that the
  source does not guard is taken modulo `2 ^ 64`, a guarded one is the plain
  natural-number operation (the guard excludes the wrap);
* a byte is a natural number below `256`; a narrowing store such as
  `dest[0] = value >> 24` is `% 256`;
* a `std::span<const std::byte>` is a `List Nat` of bytes;
* the packet buffer `std::array<std::byte, MAX_PACKET_SIZE>` is a function
  from offsets to bytes; it is not initialised by the constructor, so the
  initial contents are arbitrary;
* an operation that may throw `PacketTooLarge` returns its result together
  with the serializer state at the moment of return or throw.
-/

namespace SSH

/-! ## `src/ssh/Protocol.hxx` -/

/-- The constant `MAX_PACKET_SIZE` of `Protocol.hxx`. -/
def MAX_PACKET_SIZE : Nat := 35000

/-- The function `Padding` of `Protocol.hxx`.  Both subtractions are guarded
by the comparison with `12`, so neither wraps. -/
def Padding (size : Nat) : Nat :=
  if size ≤ 12 then
    16 - size
  else
    11 - ((size - 5) &&& 0x7)

/-- The padding formula as the specification words it, over the payload
length: `16 - payload - 5` when `payload + 5 ≤ 12`, and
`11 - ((payload - 5) mod 8)` otherwise. -/
def specPadding (payload : Nat) : Nat :=
  if payload + 5 ≤ 12 then 16 - payload - 5 else 11 - ((payload - 5) % 8)

/-! ## `src/ssh/Serializer.hxx` -/

/-- The exception type `struct PacketTooLarge {}`. -/
structure PacketTooLarge where
  deriving DecidableEq, Repr

/-- The data members of `class Serializer`: `skip`, `position` and the packet
buffer (`std::array<std::byte, MAX_PACKET_SIZE>`, offsets to bytes). -/
structure Serializer where
  skip : Nat
  position : Nat
  buffer : Nat → Nat

/-- The result of a member function that may throw: the returned value or the
exception, and the serializer as the call leaves it. -/
abbrev Thrown (α : Type) : Type := Except PacketTooLarge α × Serializer

/-- Sequencing of two calls: an exception of the first call propagates (the
state it left behind is kept), otherwise the second call runs on the state
the first one produced. -/
def andThen {α β : Type} (r : Thrown α) (f : α → Serializer → Thrown β) : Thrown β :=
  match r with
  | (Except.error e, s) => (Except.error e, s)
  | (Except.ok a, s) => f a s

/-- A single store `buffer[i] = b`. -/
def store (buffer : Nat → Nat) (i b : Nat) : Nat → Nat :=
  fun j => if j = i then b else buffer j

/-- The call `std::copy(src.begin(), src.end(), dest)`, where `dest` is the
offset of the destination in the buffer: one store per element, in order. -/
def copy (buffer : Nat → Nat) (dest : Nat) : List Nat → (Nat → Nat)
  | [] => buffer
  | b :: bs => copy (store buffer dest b) (dest + 1) bs

/-- The call `std::fill(s.begin(), s.end(), std::byte{})` on a span of `size`
bytes at offset `dest`. -/
def fill (buffer : Nat → Nat) (dest : Nat) : Nat → (Nat → Nat)
  | 0 => buffer
  | size + 1 => fill (store buffer dest 0) (dest + 1) size

/-- The call `std::copy_backward(first, last, d_last)` with `count = last - first`:
`while (first != last) *(--d_last) = *(--last);`, returning the buffer and the
iterator to the last element copied (the start of the destination). -/
def copy_backward (buffer : Nat → Nat) (last d_last : Nat) : Nat → (Nat → Nat) × Nat
  | 0 => (buffer, d_last)
  | count + 1 =>
    copy_backward (store buffer (d_last - 1) (buffer (last - 1))) (last - 1) (d_last - 1) count

/-- The bytes of `std::span{buffer}.first(n)`. -/
def first (buffer : Nat → Nat) (n : Nat) : List Nat :=
  (List.range n).map buffer

namespace Serializer

/-- The member `size()`: `position - skip` in `std::size_t`. -/
def size (s : Serializer) : Nat :=
  (s.position + 2 ^ 64 - s.skip) % 2 ^ 64

/-- The member `BeginWriteN(size)`: throws when `size` exceeds the room left,
otherwise returns the span at `position` (represented by its offset). -/
def BeginWriteN (s : Serializer) (size : Nat) : Except PacketTooLarge Nat :=
  let max_size := (MAX_PACKET_SIZE + 2 ^ 64 - s.position) % 2 ^ 64
  if size > max_size then
    Except.error {}
  else
    Except.ok s.position

/-- The member `CommitWriteN(size)`: `position += size`. -/
def CommitWriteN (s : Serializer) (size : Nat) : Serializer :=
  { s with position := (s.position + size) % 2 ^ 64 }

/-- The member `WriteN(std::size_t size)`. -/
def WriteN (s : Serializer) (size : Nat) : Thrown Nat :=
  match BeginWriteN s size with
  | Except.error e => (Except.error e, s)
  | Except.ok result => (Except.ok result, CommitWriteN s size)

/-- The member `WriteZero(size)`. -/
def WriteZero (s : Serializer) (size : Nat) : Thrown Unit :=
  andThen (WriteN s size) fun dest s1 =>
    (Except.ok (), { s1 with buffer := fill s1.buffer dest size })

/-- The member `WriteN(std::span<const std::byte> src)`. -/
def WriteNSpan (s : Serializer) (src : List Nat) : Thrown Unit :=
  andThen (WriteN s src.length) fun dest s1 =>
    (Except.ok (), { s1 with buffer := copy s1.buffer dest src })

/-- The member `WriteU8(value)`, that is `WriteT<uint8_t>() = value`; the
argument is converted to `uint8_t`. -/
def WriteU8 (s : Serializer) (value : Nat) : Thrown Unit :=
  andThen (WriteN s 1) fun dest s1 =>
    (Except.ok (), { s1 with buffer := store s1.buffer dest (value % 256) })

/-- The member `WriteU16(value)`. -/
def WriteU16 (s : Serializer) (value : Nat) : Thrown Unit :=
  andThen (WriteN s 2) fun dest s1 =>
    let hi := store s1.buffer dest ((value >>> 8) % 256)
    (Except.ok (), { s1 with buffer := store hi (dest + 1) (value % 256) })

/-- The four stores of `WriteU32` and of `CommitLength`:
`dest[0] = value >> 24; dest[1] = value >> 16; dest[2] = value >> 8; dest[3] = value`. -/
def storeBE32 (buffer : Nat → Nat) (dest value : Nat) : Nat → Nat :=
  store (store (store (store buffer dest ((value >>> 24) % 256))
    (dest + 1) ((value >>> 16) % 256)) (dest + 2) ((value >>> 8) % 256)) (dest + 3) (value % 256)

/-- The member `WriteU32(value)`. -/
def WriteU32 (s : Serializer) (value : Nat) : Thrown Unit :=
  andThen (WriteN s 4) fun dest s1 =>
    (Except.ok (), { s1 with buffer := storeBE32 s1.buffer dest value })

/-- The member `WriteBool(value)`: `WriteU8(value)`, `true` converting to 1. -/
def WriteBool (s : Serializer) (value : Bool) : Thrown Unit :=
  WriteU8 s value.toNat

/-- The member `WriteString(s)`; the characters are the bytes `AsBytes(s)`.
The length is converted from `std::size_t` to `uint_least32_t`. -/
def WriteString (s : Serializer) (str : List Nat) : Thrown Unit :=
  andThen (WriteU32 s (str.length % 2 ^ 32)) fun _ s1 =>
    WriteNSpan s1 str

/-- The member `WriteLengthEncoded(src)`. -/
def WriteLengthEncoded (s : Serializer) (src : List Nat) : Thrown Unit :=
  andThen (WriteU32 s (src.length % 2 ^ 32)) fun _ s1 =>
    WriteNSpan s1 src

/-- The loop `while (!src.empty() && src.front() == std::byte{}) src = src.subspan(1);`
of `WriteBignum2`. -/
def skipLeadingZeroes : List Nat → List Nat
  | [] => []
  | b :: bs => if b = 0 then skipLeadingZeroes bs else b :: bs

/-- The local `leading_msb` of `WriteBignum2`:
`!src.empty() && (src.front() & std::byte{0x80}) != std::byte{}`. -/
def leading_msb (src : List Nat) : Bool :=
  match src with
  | [] => false
  | b :: _ => (b &&& 0x80) != 0

/-- The member `WriteBignum2(src)`. -/
def WriteBignum2 (s : Serializer) (src0 : List Nat) : Thrown Unit :=
  let src := skipLeadingZeroes src0
  andThen (WriteU32 s ((src.length + (leading_msb src).toNat) % 2 ^ 32)) fun _ s1 =>
    if leading_msb src then
      andThen (WriteU8 s1 0) fun _ s2 =>
        WriteNSpan s2 src
    else
      WriteNSpan s1 src

/-- The member `Mark()`. -/
def Mark (s : Serializer) : Nat :=
  s.position

/-- The member `Rewind(old_position)`; `assert(position >= old_position)`. -/
def Rewind (s : Serializer) (old_position : Nat) : Serializer :=
  { s with position := old_position }

/-- The member `Since(old_position)`; `assert(position >= old_position)`. -/
def Since (s : Serializer) (old_position : Nat) : List Nat :=
  (first s.buffer s.position).drop old_position

/-- The member `PrepareLength()`. -/
def PrepareLength (s : Serializer) : Thrown Nat :=
  let result := s.position
  andThen (WriteU32 s 0) fun _ s1 =>
    (Except.ok result, s1)

/-- The member `CommitLength(at)`: `value = position - at - 4` in
`std::size_t`, stored big-endian at offset `at`. -/
def CommitLength (s : Serializer) (pos : Nat) : Serializer :=
  let diff := (s.position + 2 ^ 64 - pos) % 2 ^ 64
  let value := (diff + 2 ^ 64 - 4) % 2 ^ 64
  { s with buffer := storeBE32 s.buffer pos value }

/-- The member `InsertNullByte(backwards_offset)`;
`assert(backwards_offset <= size())`.  The span `r` is the last
`backwards_offset` bytes below `position`; it is copied one place up, and the
zero is stored at `std::prev` of the iterator `copy_backward` returns. -/
def InsertNullByte (s : Serializer) (backwards_offset : Nat) : Thrown Unit :=
  if s.position ≥ MAX_PACKET_SIZE then
    (Except.error {}, s)
  else
    let r_end := s.position
    let moved := copy_backward s.buffer r_end (r_end + 1) backwards_offset
    (Except.ok (), CommitWriteN { s with buffer := store moved.1 (moved.2 - 1) 0 } 1)

/-- The member `Skip(nbytes)`: `skip += nbytes`. -/
def Skip (s : Serializer) (nbytes : Nat) : Serializer :=
  { s with skip := (s.skip + nbytes) % 2 ^ 64 }

/-- The member `Finish()`: `std::span{buffer}.first(position).subspan(skip)`. -/
def Finish (s : Serializer) : List Nat :=
  (first s.buffer s.position).drop s.skip

end Serializer

/-! ## `src/key/ECDSAKey.cxx` -/

/-- The bytes of a string literal (`AsBytes` of a `std::string_view`). -/
def AsBytes (str : String) : List Nat :=
  str.toList.map Char.toNat

namespace ECDSAKey

/-- The member `GetAlgorithm()`. -/
def GetAlgorithm : List Nat :=
  AsBytes "ecdsa-sha2-nistp256"

/-- The member `SerializePublic(s)`.  The function `SerializePublicKey`
(`openssl/SerializeEVP.hxx`, not among the sources) is a parameter. -/
def SerializePublic (SerializePublicKey : Serializer → Thrown Unit) (s : Serializer) :
    Thrown Unit :=
  let ecdsa_curve_id := AsBytes "nistp256"
  andThen (s.WriteString GetAlgorithm) fun _ s1 =>
    andThen (s1.WriteString ecdsa_curve_id) fun _ s2 =>
      andThen s2.PrepareLength fun key_length s3 =>
        andThen (SerializePublicKey s3) fun _ s4 =>
          (Except.ok (), s4.CommitLength key_length)

end ECDSAKey

/-! ## `src/DelegateOpen.cxx` -/

/-- The exceptions `OpenFunction` terminates with: `MakeSocketError("Failed to
receive")`, `SocketClosedPrematurelyError`, `SocketBufferFullError`, and the
error `OpenReadOnly` throws. -/
inductive OpenError where
  | FailedToReceive
  | SocketClosedPrematurelyError
  | SocketBufferFullError
  | OpenReadOnlyFailed
  deriving DecidableEq, Repr

/-- The size of the local array `char path[4096]` of `OpenFunction`. -/
def sizeof_path : Nat := 4096

/-- The C string that starts at offset `start` of a character array: the
characters before the first NUL, looking at no more than `limit` of them. -/
def cString (path : Nat → Nat) (start : Nat) : Nat → List Nat
  | 0 => []
  | limit + 1 => if path start = 0 then [] else path start :: cString path (start + 1) limit

/-- What a run of `OpenFunction` did: the index of the store `path[nbytes] = 0`
when it was reached, the string passed to `OpenReadOnly` when it was called,
the descriptors passed to `EasySendMessage`, and the return value or the
exception. -/
structure OpenRun where
  terminator : Option Nat
  opened : Option (List Nat)
  sent : List Nat
  result : Except OpenError Int

/-- The function `OpenFunction`.  Its inputs are the value `nbytes` returned by
`control.Receive`, the contents of `path` after that call, and the function
`OpenReadOnly` (`io/Open.hxx`, not among the sources; `none` stands for its
exception).  The conversion `static_cast<std::size_t>(nbytes)` is reached for
`nbytes > 0` only and keeps the value. -/
def OpenFunction (nbytes : Int) (path : Nat → Nat) (OpenReadOnly : List Nat → Option Nat) :
    OpenRun :=
  if nbytes < 0 then
    ⟨none, none, [], Except.error OpenError.FailedToReceive⟩
  else if nbytes = 0 then
    ⟨none, none, [], Except.error OpenError.SocketClosedPrematurelyError⟩
  else if nbytes.toNat ≥ sizeof_path then
    ⟨none, none, [], Except.error OpenError.SocketBufferFullError⟩
  else
    let index := nbytes.toNat
    let path1 := store path index 0
    let name := cString path1 0 sizeof_path
    match OpenReadOnly name with
    | none => ⟨some index, some name, [], Except.error OpenError.OpenReadOnlyFailed⟩
    | some fd => ⟨some index, some name, [fd], Except.ok 0⟩

/-- The exceptions `DelegateOpen` terminates with: `MakeSocketError("Failed to
send")`, an exception of `EasyReceiveMessageWithOneFD`, and
`std::runtime_error{"Bad number of fds"}`. -/
inductive DelegateError where
  | FailedToSend
  | ReceiveFailed
  | BadNumberOfFds
  deriving DecidableEq, Repr

/-- The function `DelegateOpen` once the child process has been spawned.  Its
inputs are the value `s.Send` returns in `SendOpen` and the outcome of
`EasyReceiveMessageWithOneFD` (`net/EasyMessage.hxx`, not among the sources):
an exception, or a descriptor that may be undefined (`none`). -/
def DelegateOpen (send_nbytes : Int) (received : Except DelegateError (Option Nat)) :
    Except DelegateError Nat :=
  if send_nbytes < 0 then
    Except.error DelegateError.FailedToSend
  else
    match received with
    | Except.error e => Except.error e
    | Except.ok none => Except.error DelegateError.BadNumberOfFds
    | Except.ok (some fd) => Except.ok fd

/-! ## Vocabulary of the properties -/

/-- The 4-byte big-endian encoding of `n` (of `n mod 2 ^ 32`). -/
def BE32 (n : Nat) : List Nat :=
  [n / 2 ^ 24 % 256, n / 2 ^ 16 % 256, n / 2 ^ 8 % 256, n % 256]

/-- The state `s'` is the state `s` with exactly the bytes `w` appended: `skip`
is the same, `position` has advanced by the length of `w`, the bytes written
since the old position (`Since`) are `w`, and no byte of the buffer outside
the appended range has changed. -/
def Appended (s s' : Serializer) (w : List Nat) : Prop :=
  s'.skip = s.skip ∧ s'.position = s.position + w.length ∧
    s'.Since s.position = w ∧
    ∀ i, i < s.position ∨ s.position + w.length ≤ i → s'.buffer i = s.buffer i

/-- The serializer `s` after the bytes `w` have been copied to the offset
`position` and `position` has advanced past them. -/
def Serializer.push (s : Serializer) (w : List Nat) : Serializer :=
  { s with position := s.position + w.length, buffer := copy s.buffer s.position w }

/-- Every element of the list is a byte. -/
def IsBytes (l : List Nat) : Prop :=
  ∀ b ∈ l, b < 256

instance (l : List Nat) : Decidable (IsBytes l) :=
  inferInstanceAs (Decidable (∀ b ∈ l, b < 256))

/-- The list `src` with all leading `0x00` bytes removed. -/
def stripZeros (src : List Nat) : List Nat :=
  src.dropWhile (fun b => b == 0)

/-- Bit 7, the high bit of a byte, is set. -/
def highBit (b : Nat) : Bool :=
  b / 128 % 2 == 1

/-- The sign padding `z` of an mpint body `t`: the single byte `0x00` when `t`
is non-empty and the high bit of its first byte is set, empty otherwise. -/
def signPad (t : List Nat) : List Nat :=
  match t with
  | [] => []
  | b :: _ => if highBit b then [0] else []

/-- The mpint encoding of the magnitude `src`: `BE32 (|z| + |t|) ++ z ++ t`
with `t = stripZeros src` and `z = signPad t`. -/
def mpint (src : List Nat) : List Nat :=
  BE32 ((signPad (stripZeros src)).length + (stripZeros src).length) ++
    signPad (stripZeros src) ++ stripZeros src

/-- The unsigned big-endian value of a byte sequence. -/
def beNat : List Nat → Nat
  | [] => 0
  | b :: bs => b * 256 ^ bs.length + beNat bs

/-- The two's-complement big-endian value of a byte sequence; the empty
sequence is `0`. -/
def beInt (body : List Nat) : Int :=
  match body with
  | [] => 0
  | b :: _ => if 128 ≤ b then (beNat body : Int) - 256 ^ body.length else (beNat body : Int)

/-- The reading of an mpint in the words of the specification: a u32 length
`L`, then `L` bytes interpreted as a two's-complement big-endian integer.  The
result is the value with the input that is left; reading fails when fewer
than `4 + L` bytes are there. -/
def readMpint (input : List Nat) : Option (Int × List Nat) :=
  match input with
  | b0 :: b1 :: b2 :: b3 :: rest =>
    let L := b0 * 2 ^ 24 + b1 * 2 ^ 16 + b2 * 2 ^ 8 + b3
    if L ≤ rest.length then some (beInt (rest.take L), rest.drop L) else none
  | _ => none

/-- A call of one of the write operations of the serializer, with its
arguments. -/
inductive WriteOp where
  | WriteN (size : Nat)
  | WriteZero (size : Nat)
  | WriteNSpan (src : List Nat)
  | WriteU8 (value : Nat)
  | WriteU16 (value : Nat)
  | WriteU32 (value : Nat)
  | WriteBool (value : Bool)
  | WriteString (str : List Nat)
  | WriteLengthEncoded (src : List Nat)
  | WriteBignum2 (src : List Nat)
  | InsertNullByte (backwards_offset : Nat)

/-- The call performed on a serializer (the span `WriteN(size)` returns is
dropped). -/
def WriteOp.run (op : WriteOp) (s : Serializer) : Thrown Unit :=
  match op with
  | WriteOp.WriteN size => andThen (s.WriteN size) fun _ s1 => (Except.ok (), s1)
  | WriteOp.WriteZero size => s.WriteZero size
  | WriteOp.WriteNSpan src => s.WriteNSpan src
  | WriteOp.WriteU8 value => s.WriteU8 value
  | WriteOp.WriteU16 value => s.WriteU16 value
  | WriteOp.WriteU32 value => s.WriteU32 value
  | WriteOp.WriteBool value => s.WriteBool value
  | WriteOp.WriteString str => s.WriteString str
  | WriteOp.WriteLengthEncoded src => s.WriteLengthEncoded src
  | WriteOp.WriteBignum2 src => s.WriteBignum2 src
  | WriteOp.InsertNullByte backwards_offset => s.InsertNullByte backwards_offset

/-- The number of bytes the call would append in total. -/
def WriteOp.count (op : WriteOp) : Nat :=
  match op with
  | WriteOp.WriteN size => size
  | WriteOp.WriteZero size => size
  | WriteOp.WriteNSpan src => src.length
  | WriteOp.WriteU8 _ => 1
  | WriteOp.WriteU16 _ => 2
  | WriteOp.WriteU32 _ => 4
  | WriteOp.WriteBool _ => 1
  | WriteOp.WriteString str => 4 + str.length
  | WriteOp.WriteLengthEncoded src => 4 + src.length
  | WriteOp.WriteBignum2 src => 4 + (signPad (stripZeros src)).length + (stripZeros src).length
  | WriteOp.InsertNullByte _ => 1

/-- The byte sequence the call appends, for the calls that append data of
their own: `WriteN(size)` only reserves room and `InsertNullByte` moves
earlier bytes, so they have none. -/
def WriteOp.bytes (op : WriteOp) : Option (List Nat) :=
  match op with
  | WriteOp.WriteN _ => none
  | WriteOp.WriteZero size => some (List.replicate size 0)
  | WriteOp.WriteNSpan src => some src
  | WriteOp.WriteU8 value => some [value % 256]
  | WriteOp.WriteU16 value => some [value / 2 ^ 8 % 256, value % 256]
  | WriteOp.WriteU32 value => some (BE32 value)
  | WriteOp.WriteBool value => some [if value then 1 else 0]
  | WriteOp.WriteString str => some (BE32 str.length ++ str)
  | WriteOp.WriteLengthEncoded src => some (BE32 src.length ++ src)
  | WriteOp.WriteBignum2 src => some (mpint src)
  | WriteOp.InsertNullByte _ => none

/-- One step of a use of the serializer: a write operation or `Skip(nbytes)`. -/
inductive Step where
  | write (op : WriteOp)
  | Skip (nbytes : Nat)

/-- The steps performed in order; the first exception ends the run. -/
def runSteps (steps : List Step) (s : Serializer) : Thrown Unit :=
  match steps with
  | [] => (Except.ok (), s)
  | Step.write op :: rest => andThen (op.run s) fun _ s1 => runSteps rest s1
  | Step.Skip nbytes :: rest => runSteps rest (s.Skip nbytes)

/-- The byte sequences `w1 ++ ... ++ wk` the write steps append, when each of
them appends data of its own. -/
def stepsBytes (steps : List Step) : Option (List Nat) :=
  match steps with
  | [] => some []
  | Step.write op :: rest =>
    match op.bytes, stepsBytes rest with
    | some w, some ws => some (w ++ ws)
    | _, _ => none
  | Step.Skip _ :: rest => stepsBytes rest

/-- The total of the `Skip` calls. -/
def stepsSkip (steps : List Step) : Nat :=
  match steps with
  | [] => 0
  | Step.write _ :: rest => stepsSkip rest
  | Step.Skip nbytes :: rest => nbytes + stepsSkip rest

/-- The idiom `at = PrepareLength(); WriteN(src); CommitLength(at)`, as in
`ECDSAKey::SerializePublic`. -/
def writeWithPlaceholder (s : Serializer) (src : List Nat) : Thrown Unit :=
  andThen s.PrepareLength fun pos s1 =>
    andThen (s1.WriteNSpan src) fun _ s2 =>
      (Except.ok (), s2.CommitLength pos)

/-! ## Theorems -/

/-- The mask `& 0x7` is the remainder modulo 8. -/
theorem land_seven (x : Nat) : x &&& 0x7 = x % 8 := by
  simpa using Nat.and_pow_two_sub_one_eq_mod x 3

/-- The value of `Padding` without the bit operation. -/
theorem Padding_eq (size : Nat) :
    Padding size = if size ≤ 12 then 16 - size else 11 - (size - 5) % 8 := by
  unfold Padding
  rw [land_seven]

/-- Claim C1 as stated fails: for the empty payload, `Padding (0 + 5) = 11`
and `(1 + 0 + 11) mod 8 = 4`, not `0`. -/
theorem Padding_payload_alignment_counterexample :
    0 + 5 ≤ 35000 ∧ Padding (0 + 5) = 11 ∧ (1 + 0 + Padding (0 + 5)) % 8 ≠ 0 := by
  decide

/-- Claim C1, amended: for every payload length `n`, with
`padding_len = Padding (n + 5)` the whole packet, the 4-byte length field
included, is a multiple of 8: `(4 + 1 + n + padding_len) mod 8 = 0`; without
the length field the remainder is `4`. -/
theorem Padding_packet_alignment (n : Nat) :
    (4 + 1 + n + Padding (n + 5)) % 8 = 0 ∧ (1 + n + Padding (n + 5)) % 8 = 4 := by
  rw [Padding_eq]
  split <;> omega

/-- Claim C2: for every size, `Padding size ≥ 4` and
`size + Padding size ≥ 16`. -/
theorem Padding_ge_four_and_total_ge_sixteen (size : Nat) :
    Padding size ≥ 4 ∧ size + Padding size ≥ 16 := by
  rw [Padding_eq]
  split <;> omega

/-- Claim C3 as stated fails: for a payload of 8 bytes the code gives
`Padding (8 + 5) = 11`, the formula of the specification gives `8`. -/
theorem Padding_spec_formula_counterexample :
    Padding (8 + 5) = 11 ∧ specPadding 8 = 8 ∧ Padding (8 + 5) ≠ specPadding 8 := by
  decide

/-- Claim C3, amended: for every payload length `n`, `Padding (n + 5)` is
`16 - n - 5` when `n + 5 ≤ 12`, and `11 - (n mod 8)` otherwise (the remainder
is taken of the payload length itself, not of `n - 5`). -/
theorem Padding_payload_formula (n : Nat) :
    Padding (n + 5) = if n + 5 ≤ 12 then 16 - n - 5 else 11 - n % 8 := by
  rw [Padding_eq]
  split <;> omega

/-! ### The buffer primitives -/

theorem store_apply (buffer : Nat → Nat) (i b j : Nat) :
    store buffer i b j = if j = i then b else buffer j := rfl

theorem copy_apply (src : List Nat) (buffer : Nat → Nat) (dest i : Nat) :
    copy buffer dest src i =
      if dest ≤ i ∧ i < dest + src.length then src.getD (i - dest) 0 else buffer i := by
  induction src generalizing buffer dest with
  | nil =>
    have h : ¬ (dest ≤ i ∧ i < dest + ([] : List Nat).length) := by simp
    rw [if_neg h, copy]
  | cons b bs ih =>
    rw [copy, ih, store_apply]
    by_cases h1 : i = dest
    · subst h1
      simp
    · by_cases h2 : dest ≤ i ∧ i < dest + (bs.length + 1)
      · have h3 : dest + 1 ≤ i ∧ i < dest + 1 + bs.length := by omega
        have h4 : i - dest = (i - (dest + 1)) + 1 := by omega
        rw [if_pos h3, List.length_cons, if_pos h2, h4, List.getD_cons_succ]
      · have h3 : ¬ (dest + 1 ≤ i ∧ i < dest + 1 + bs.length) := by omega
        rw [if_neg h3, if_neg h1, List.length_cons, if_neg h2]

theorem fill_apply (size : Nat) (buffer : Nat → Nat) (dest i : Nat) :
    fill buffer dest size i = if dest ≤ i ∧ i < dest + size then 0 else buffer i := by
  induction size generalizing buffer dest with
  | zero =>
    have h : ¬ (dest ≤ i ∧ i < dest + 0) := by omega
    rw [if_neg h, fill]
  | succ n ih =>
    rw [fill, ih, store_apply]
    by_cases h1 : i = dest
    · subst h1
      simp
    · by_cases h2 : dest ≤ i ∧ i < dest + (n + 1)
      · have h3 : dest + 1 ≤ i ∧ i < dest + 1 + n := by omega
        rw [if_pos h3, if_pos h2]
      · have h3 : ¬ (dest + 1 ≤ i ∧ i < dest + 1 + n) := by omega
        rw [if_neg h3, if_neg h1, if_neg h2]

theorem fill_eq_copy (size : Nat) (buffer : Nat → Nat) (dest : Nat) :
    fill buffer dest size = copy buffer dest (List.replicate size 0) := by
  funext i
  rw [fill_apply, copy_apply, List.length_replicate]
  split
  · rename_i h
    rw [List.getD_eq_getElem?_getD, List.getElem?_replicate]
    have : i - dest < size := by omega
    simp [this]
  · rfl

theorem BE32_length (n : Nat) : (BE32 n).length = 4 := rfl

theorem storeBE32_eq_copy (buffer : Nat → Nat) (dest value : Nat) :
    Serializer.storeBE32 buffer dest value = copy buffer dest (BE32 value) := by
  funext i
  simp only [Serializer.storeBE32, BE32, copy, Nat.shiftRight_eq_div_pow]

theorem copy_append (buffer : Nat → Nat) (dest : Nat) (u v : List Nat) :
    copy (copy buffer dest u) (dest + u.length) v = copy buffer dest (u ++ v) := by
  induction u generalizing buffer dest with
  | nil => simp [copy]
  | cons b bs ih =>
    have h : dest + (b :: bs).length = dest + 1 + bs.length := by
      rw [List.length_cons]; omega
    rw [h, List.cons_append, copy, copy, ih]

theorem first_length (buffer : Nat → Nat) (n : Nat) : (first buffer n).length = n := by
  simp [first]

theorem drop_first (buffer : Nat → Nat) (p n : Nat) :
    (first buffer (p + n)).drop p = (List.range n).map (fun i => buffer (p + i)) := by
  apply List.ext_getElem
  · simp [first]
  · intro i h1 h2
    simp [first]

theorem first_copy (buffer : Nat → Nat) (w : List Nat) :
    (List.range w.length).map (fun i => copy buffer p w (p + i)) = w := by
  apply List.ext_getElem
  · simp
  · intro i h1 h2
    simp only [List.length_map, List.length_range] at h1
    simp [copy_apply, h1, List.getD_eq_getElem?_getD]

/-! ### Single write operations -/

namespace Serializer

theorem BeginWriteN_ok (s : Serializer) (n : Nat) (h : s.position + n ≤ MAX_PACKET_SIZE) :
    BeginWriteN s n = Except.ok s.position := by
  unfold BeginWriteN
  simp only [MAX_PACKET_SIZE] at *
  rw [if_neg]
  omega

theorem BeginWriteN_error (s : Serializer) (n : Nat) (hp : s.position ≤ MAX_PACKET_SIZE)
    (h : MAX_PACKET_SIZE < s.position + n) : BeginWriteN s n = Except.error {} := by
  unfold BeginWriteN
  simp only [MAX_PACKET_SIZE] at *
  rw [if_pos]
  omega

theorem WriteN_ok (s : Serializer) (n : Nat) (h : s.position + n ≤ MAX_PACKET_SIZE) :
    WriteN s n = (Except.ok s.position, { s with position := s.position + n }) := by
  unfold WriteN
  rw [BeginWriteN_ok s n h]
  simp only [CommitWriteN, MAX_PACKET_SIZE] at *
  have : (s.position + n) % 2 ^ 64 = s.position + n := by omega
  rw [this]

theorem WriteN_error (s : Serializer) (n : Nat) (hp : s.position ≤ MAX_PACKET_SIZE)
    (h : MAX_PACKET_SIZE < s.position + n) : WriteN s n = (Except.error {}, s) := by
  unfold WriteN
  rw [BeginWriteN_error s n hp h]

theorem WriteNSpan_ok (s : Serializer) (src : List Nat)
    (h : s.position + src.length ≤ MAX_PACKET_SIZE) :
    WriteNSpan s src = (Except.ok (), s.push src) := by
  unfold WriteNSpan
  rw [WriteN_ok s _ h]
  rfl

theorem WriteNSpan_error (s : Serializer) (src : List Nat) (hp : s.position ≤ MAX_PACKET_SIZE)
    (h : MAX_PACKET_SIZE < s.position + src.length) :
    WriteNSpan s src = (Except.error {}, s) := by
  unfold WriteNSpan
  rw [WriteN_error s _ hp h]
  rfl

theorem WriteZero_ok (s : Serializer) (n : Nat) (h : s.position + n ≤ MAX_PACKET_SIZE) :
    WriteZero s n = (Except.ok (), s.push (List.replicate n 0)) := by
  unfold WriteZero
  rw [WriteN_ok s _ h]
  simp only [andThen, push, fill_eq_copy, List.length_replicate]

theorem WriteZero_error (s : Serializer) (n : Nat) (hp : s.position ≤ MAX_PACKET_SIZE)
    (h : MAX_PACKET_SIZE < s.position + n) : WriteZero s n = (Except.error {}, s) := by
  unfold WriteZero
  rw [WriteN_error s _ hp h]
  rfl

theorem WriteU8_ok (s : Serializer) (v : Nat) (h : s.position + 1 ≤ MAX_PACKET_SIZE) :
    WriteU8 s v = (Except.ok (), s.push [v % 256]) := by
  unfold WriteU8
  rw [WriteN_ok s _ h]
  rfl

theorem WriteU8_error (s : Serializer) (v : Nat) (hp : s.position ≤ MAX_PACKET_SIZE)
    (h : MAX_PACKET_SIZE < s.position + 1) : WriteU8 s v = (Except.error {}, s) := by
  unfold WriteU8
  rw [WriteN_error s _ hp h]
  rfl

theorem WriteU16_ok (s : Serializer) (v : Nat) (h : s.position + 2 ≤ MAX_PACKET_SIZE) :
    WriteU16 s v = (Except.ok (), s.push [v / 2 ^ 8 % 256, v % 256]) := by
  unfold WriteU16
  rw [WriteN_ok s _ h]
  simp only [andThen, push, copy, Nat.shiftRight_eq_div_pow, List.length_cons, List.length_nil]

theorem WriteU16_error (s : Serializer) (v : Nat) (hp : s.position ≤ MAX_PACKET_SIZE)
    (h : MAX_PACKET_SIZE < s.position + 2) : WriteU16 s v = (Except.error {}, s) := by
  unfold WriteU16
  rw [WriteN_error s _ hp h]
  rfl

theorem WriteU32_ok (s : Serializer) (v : Nat) (h : s.position + 4 ≤ MAX_PACKET_SIZE) :
    WriteU32 s v = (Except.ok (), s.push (BE32 v)) := by
  unfold WriteU32
  rw [WriteN_ok s _ h]
  simp only [andThen, push, storeBE32_eq_copy, BE32_length]

theorem WriteU32_error (s : Serializer) (v : Nat) (hp : s.position ≤ MAX_PACKET_SIZE)
    (h : MAX_PACKET_SIZE < s.position + 4) : WriteU32 s v = (Except.error {}, s) := by
  unfold WriteU32
  rw [WriteN_error s _ hp h]
  rfl

theorem push_position (s : Serializer) (w : List Nat) :
    (s.push w).position = s.position + w.length := rfl

theorem push_skip (s : Serializer) (w : List Nat) : (s.push w).skip = s.skip := rfl

theorem push_push (s : Serializer) (u v : List Nat) :
    (s.push u).push v = s.push (u ++ v) := by
  simp only [push, copy_append, List.length_append, Nat.add_assoc]

theorem push_nil (s : Serializer) : s.push [] = s := rfl

end Serializer

theorem Appended_push (s : Serializer) (w : List Nat) : Appended s (s.push w) w := by
  refine ⟨rfl, rfl, ?_, ?_⟩
  · simp only [Serializer.Since, Serializer.push, drop_first]
    exact first_copy _ _
  · intro i hi
    simp only [Serializer.push, copy_apply]
    rw [if_neg]
    omega

namespace Serializer

theorem skipLeadingZeroes_eq (src : List Nat) : skipLeadingZeroes src = stripZeros src := by
  induction src with
  | nil => rfl
  | cons b bs ih =>
    by_cases h : b = 0
    · simp [skipLeadingZeroes, stripZeros, h, ← ih] 
      simpa [stripZeros] using ih
    · simp [skipLeadingZeroes, stripZeros, h]

theorem land_highBit (b : Nat) : ((b &&& 0x80) != 0) = highBit b := by
  have h := Nat.and_two_pow b 7
  have h2 := Nat.testBit_to_div_mod (x := b) (i := 7)
  simp only [Nat.reducePow] at h h2
  rw [h, h2]
  unfold highBit
  by_cases h3 : b / 128 % 2 = 1 <;> simp [h3]

theorem signPad_eq (t : List Nat) : signPad t = if leading_msb t then [0] else [] := by
  cases t with
  | nil => rfl
  | cons b bs => simp only [signPad, leading_msb, land_highBit]

theorem mpint_length (src : List Nat) :
    (mpint src).length = 4 + (signPad (stripZeros src)).length + (stripZeros src).length := by
  simp only [mpint, List.length_append, BE32_length]

theorem WriteBignum2_push (s : Serializer) (src : List Nat)
    (hfit : s.position + (mpint src).length ≤ MAX_PACKET_SIZE) :
    WriteBignum2 s src = (Except.ok (), s.push (mpint src)) := by
  rw [mpint_length] at hfit
  unfold WriteBignum2
  simp only [skipLeadingZeroes_eq]
  have hpad := signPad_eq (stripZeros src)
  unfold mpint
  generalize stripZeros src = t at *
  simp only [MAX_PACKET_SIZE] at *
  cases hm : leading_msb t
  · rw [hm] at hpad
    simp only [Bool.false_eq_true, if_false] at hpad
    rw [hpad] at hfit ⊢
    simp only [List.length_nil] at hfit
    have hlen : (t.length + false.toNat) % 2 ^ 32 = ([] : List Nat).length + t.length := by
      simp only [Bool.toNat_false, List.length_nil]; omega
    rw [hlen, WriteU32_ok s _ (by simp only [MAX_PACKET_SIZE]; omega)]
    simp only [andThen, Bool.false_eq_true, if_false]
    rw [WriteNSpan_ok _ _ (by simp only [push_position, BE32_length, MAX_PACKET_SIZE]; omega),
      push_push, List.append_nil]
  · rw [hm] at hpad
    simp only [if_true] at hpad
    rw [hpad] at hfit ⊢
    simp only [List.length_cons, List.length_nil] at hfit
    have hlen : (t.length + true.toNat) % 2 ^ 32 = ([0] : List Nat).length + t.length := by
      simp only [Bool.toNat_true, List.length_cons, List.length_nil]; omega
    rw [hlen, WriteU32_ok s _ (by simp only [MAX_PACKET_SIZE]; omega)]
    simp only [andThen, if_true]
    rw [WriteU8_ok _ _ (by simp only [push_position, BE32_length, MAX_PACKET_SIZE]; omega)]
    simp only []
    rw [WriteNSpan_ok _ _ (by
      simp only [push_position, BE32_length, MAX_PACKET_SIZE, List.length_cons, List.length_nil]
      omega), push_push, push_push]
    rfl

theorem WriteBignum2_error (s : Serializer) (src : List Nat) (hp : s.position ≤ MAX_PACKET_SIZE)
    (hfit : MAX_PACKET_SIZE < s.position + (mpint src).length) :
    (WriteBignum2 s src).1 = Except.error {} := by
  rw [mpint_length] at hfit
  unfold WriteBignum2
  simp only [skipLeadingZeroes_eq]
  have hpad := signPad_eq (stripZeros src)
  generalize stripZeros src = t at *
  by_cases h4 : s.position + 4 ≤ MAX_PACKET_SIZE
  · rw [WriteU32_ok s _ h4]
    simp only [andThen]
    cases hm : leading_msb t
    · rw [hm] at hpad
      simp only [Bool.false_eq_true, if_false] at hpad ⊢
      rw [hpad] at hfit
      rw [WriteNSpan_error _ _ (by simp only [push_position, BE32_length]; omega)
        (by simp only [push_position, BE32_length, List.length_nil] at *; omega)]
    · rw [hm] at hpad
      simp only [if_true] at hpad ⊢
      rw [hpad] at hfit
      by_cases h5 : s.position + 5 ≤ MAX_PACKET_SIZE
      · rw [WriteU8_ok _ _ (by simp only [push_position, BE32_length]; omega)]
        simp only []
        rw [WriteNSpan_error _ _
          (by simp only [push_position, BE32_length, List.length_cons, List.length_nil]; omega)
          (by simp only [push_position, BE32_length, List.length_cons, List.length_nil] at *; omega)]
      · rw [WriteU8_error _ _ (by simp only [push_position, BE32_length]; omega)
          (by simp only [push_position, BE32_length]; omega)]
  · rw [WriteU32_error s _ hp (by omega)]
    rfl

theorem WriteLengthEncoded_push (s : Serializer) (src : List Nat)
    (hfit : s.position + 4 + src.length ≤ MAX_PACKET_SIZE) :
    WriteLengthEncoded s src = (Except.ok (), s.push (BE32 src.length ++ src)) := by
  unfold WriteLengthEncoded
  have hlen : src.length % 2 ^ 32 = src.length := by
    simp only [MAX_PACKET_SIZE] at hfit; omega
  rw [hlen, WriteU32_ok s _ (by omega)]
  simp only [andThen]
  rw [WriteNSpan_ok _ _ (by simp only [push_position, BE32_length]; omega), push_push]

theorem WriteLengthEncoded_error (s : Serializer) (src : List Nat)
    (hp : s.position ≤ MAX_PACKET_SIZE)
    (hfit : MAX_PACKET_SIZE < s.position + 4 + src.length) :
    WriteLengthEncoded s src = (Except.error {},
      if MAX_PACKET_SIZE < s.position + 4 then s else s.push (BE32 (src.length % 2 ^ 32))) := by
  unfold WriteLengthEncoded
  by_cases h4 : MAX_PACKET_SIZE < s.position + 4
  · rw [WriteU32_error s _ hp h4, if_pos h4]
    rfl
  · rw [WriteU32_ok s _ (by omega), if_neg h4]
    simp only [andThen]
    rw [WriteNSpan_error _ _ (by simp only [push_position, BE32_length]; omega)
      (by simp only [push_position, BE32_length]; omega)]

theorem WriteString_eq (s : Serializer) (str : List Nat) :
    WriteString s str = WriteLengthEncoded s str := rfl

theorem WriteBool_eq (s : Serializer) (value : Bool) :
    WriteBool s value = WriteU8 s (if value then 1 else 0) := by
  cases value <;> rfl

end Serializer

/-! ### The mpint encoding -/

theorem stripZeros_eq_nil (src : List Nat) (h : ∀ b ∈ src, b = 0) : stripZeros src = [] := by
  induction src with
  | nil => rfl
  | cons b bs ih =>
    have hb : b = 0 := h b (List.mem_cons_self _ _)
    have := ih (fun c hc => h c (List.mem_cons_of_mem _ hc))
    simpa [stripZeros, hb] using this

/-- Claim C4: when the encoding fits, `WriteBignum2(src)` succeeds and appends
exactly `BE32 (|z| + |t|) ++ z ++ t`, where `t` is `src` without its leading
zero bytes and `z` is `[0x00]` when `t` is non-empty with the high bit of its
first byte set, and empty otherwise; for an empty or all-zero input it
appends `00 00 00 00`. -/
theorem WriteBignum2_appends_mpint (s : Serializer) (src : List Nat)
    (hfit : s.position + (4 + (signPad (stripZeros src)).length + (stripZeros src).length)
      ≤ MAX_PACKET_SIZE) :
    (s.WriteBignum2 src).1 = Except.ok () ∧
    Appended s (s.WriteBignum2 src).2
      (BE32 ((signPad (stripZeros src)).length + (stripZeros src).length) ++
        signPad (stripZeros src) ++ stripZeros src) ∧
    ((∀ b ∈ src, b = 0) → Appended s (s.WriteBignum2 src).2 [0, 0, 0, 0]) := by
  have h := Serializer.WriteBignum2_push s src (by rw [Serializer.mpint_length]; exact hfit)
  rw [h]
  refine ⟨rfl, Appended_push s _, ?_⟩
  intro hz
  have hm : mpint src = [0, 0, 0, 0] := by
    rw [mpint, stripZeros_eq_nil src hz]
    rfl
  rw [hm]
  exact Appended_push s _

/-- Witness for C4: the magnitude `00 80 01` is written as
`00 00 00 03 00 80 01`. -/
theorem WriteBignum2_appends_mpint_witness :
    Appended ⟨0, 0, fun _ => 0⟩
      (Serializer.WriteBignum2 ⟨0, 0, fun _ => 0⟩ [0, 0x80, 1]).2 [0, 0, 0, 3, 0, 0x80, 1] ∧
    (Serializer.WriteBignum2 ⟨0, 0, fun _ => 0⟩ [0, 0x80, 1]).2.Finish
      = [0, 0, 0, 3, 0, 0x80, 1] :=
  ⟨(WriteBignum2_appends_mpint ⟨0, 0, fun _ => 0⟩ [0, 0x80, 1] (by decide)).2.1, by decide⟩

theorem beNat_stripZeros (src : List Nat) : beNat (stripZeros src) = beNat src := by
  induction src with
  | nil => rfl
  | cons b bs ih =>
    by_cases hb : b = 0
    · have h : stripZeros (b :: bs) = stripZeros bs := by simp [stripZeros, hb]
      rw [h, ih, hb, beNat]
      omega
    · have h : stripZeros (b :: bs) = b :: bs := by simp [stripZeros, hb]
      rw [h]

theorem IsBytes_stripZeros (src : List Nat) (h : IsBytes src) : IsBytes (stripZeros src) :=
  fun b hb => h b ((List.dropWhile_sublist _).subset hb)

theorem beInt_signPad (t : List Nat) (ht : IsBytes t) :
    beInt (signPad t ++ t) = (beNat t : Int) := by
  cases t with
  | nil => rfl
  | cons b bs =>
    have hb : b < 256 := ht b (List.mem_cons_self _ _)
    by_cases h : highBit b = true
    · simp only [signPad, h, if_true, List.singleton_append, beInt]
      rw [if_neg (by omega)]
      congr 1
      rw [beNat]
      omega
    · simp only [signPad, h, Bool.false_eq_true, if_false, List.nil_append, beInt]
      rw [if_neg]
      simp only [highBit, beq_iff_eq] at h
      omega

theorem readMpint_BE32 (body : List Nat) (h : body.length < 2 ^ 32) :
    readMpint (BE32 body.length ++ body) = some (beInt body, []) := by
  have hL : body.length / 2 ^ 24 % 256 * 2 ^ 24 + body.length / 2 ^ 16 % 256 * 2 ^ 16
      + body.length / 2 ^ 8 % 256 * 2 ^ 8 + body.length % 256 = body.length := by
    omega
  simp only [BE32, List.cons_append, List.nil_append, readMpint, hL]
  simp

/-- Claim C5: whenever `WriteBignum2(src)` succeeds on a sequence of bytes,
reading its output back as an mpint (u32 length, then that many bytes as a
two's-complement big-endian integer) consumes it entirely and yields the
unsigned big-endian value of `src`, which is not negative. -/
theorem WriteBignum2_round_trip (s : Serializer) (src : List Nat) (hsrc : IsBytes src)
    (hp : s.position ≤ MAX_PACKET_SIZE)
    (hok : (s.WriteBignum2 src).1 = Except.ok ()) :
    readMpint ((s.WriteBignum2 src).2.Since s.position) = some ((beNat src : Int), []) ∧
    ∀ v rest, readMpint ((s.WriteBignum2 src).2.Since s.position) = some (v, rest) → 0 ≤ v := by
  have hfit : s.position + (mpint src).length ≤ MAX_PACKET_SIZE := by
    by_contra hc
    rw [Serializer.WriteBignum2_error s src hp (by omega)] at hok
    cases hok
  have hw := Serializer.WriteBignum2_push s src hfit
  have hA := (Appended_push s (mpint src)).2.2.1
  have hread : readMpint (mpint src) = some ((beNat src : Int), []) := by
    have hlen : (signPad (stripZeros src) ++ stripZeros src).length < 2 ^ 32 := by
      rw [Serializer.mpint_length] at hfit
      simp only [MAX_PACKET_SIZE] at hfit
      rw [List.length_append]
      omega
    have h := readMpint_BE32 (signPad (stripZeros src) ++ stripZeros src) hlen
    rw [beInt_signPad _ (IsBytes_stripZeros src hsrc), beNat_stripZeros, List.length_append,
      ← List.append_assoc] at h
    exact h
  rw [hw]
  simp only []
  rw [hA, hread]
  refine ⟨rfl, ?_⟩
  intro v rest h
  cases h
  exact Int.natCast_nonneg _

/-- Witness for C5: the magnitude `ff 01` (high bit set) is written with a
zero byte in front and reads back as `0xff01 = 65281`. -/
theorem WriteBignum2_round_trip_witness :
    readMpint ((Serializer.WriteBignum2 ⟨0, 0, fun _ => 0⟩ [0xff, 1]).2.Since 0)
      = some (65281, []) :=
  (WriteBignum2_round_trip ⟨0, 0, fun _ => 0⟩ [0xff, 1] (by decide) (by decide) rfl).1

/-! ### Fixed-width integers and strings -/

/-- Claim C6: the fixed-width writers are big-endian.  When there is room,
`WriteU32(v)` with `v < 2 ^ 32` appends four bytes `b0 b1 b2 b3` with
`b0 * 2 ^ 24 + b1 * 2 ^ 16 + b2 * 2 ^ 8 + b3 = v`, `WriteU16(v)` with
`v < 2 ^ 16` appends two bytes `b0 b1` with `b0 * 2 ^ 8 + b1 = v`,
`WriteU8(v)` appends the byte `v`, and `WriteBool` appends `1` for true and
`0` for false. -/
theorem fixed_width_writers_big_endian (s : Serializer) (v : Nat) (value : Bool) :
    (v < 2 ^ 32 → s.position + 4 ≤ MAX_PACKET_SIZE →
      ∃ b0 b1 b2 b3, (s.WriteU32 v).1 = Except.ok () ∧
        Appended s (s.WriteU32 v).2 [b0, b1, b2, b3] ∧
        b0 < 256 ∧ b1 < 256 ∧ b2 < 256 ∧ b3 < 256 ∧
        b0 * 2 ^ 24 + b1 * 2 ^ 16 + b2 * 2 ^ 8 + b3 = v) ∧
    (v < 2 ^ 16 → s.position + 2 ≤ MAX_PACKET_SIZE →
      ∃ b0 b1, (s.WriteU16 v).1 = Except.ok () ∧
        Appended s (s.WriteU16 v).2 [b0, b1] ∧
        b0 < 256 ∧ b1 < 256 ∧ b0 * 2 ^ 8 + b1 = v) ∧
    (v < 2 ^ 8 → s.position + 1 ≤ MAX_PACKET_SIZE →
      (s.WriteU8 v).1 = Except.ok () ∧ Appended s (s.WriteU8 v).2 [v]) ∧
    (s.position + 1 ≤ MAX_PACKET_SIZE →
      (s.WriteBool value).1 = Except.ok () ∧
        Appended s (s.WriteBool value).2 [if value then 1 else 0]) := by
  refine ⟨?_, ?_, ?_, ?_⟩
  · intro hv hp
    refine ⟨v / 2 ^ 24 % 256, v / 2 ^ 16 % 256, v / 2 ^ 8 % 256, v % 256, ?_⟩
    rw [Serializer.WriteU32_ok s v hp]
    refine ⟨rfl, Appended_push s _, ?_, ?_, ?_, ?_, ?_⟩ <;> omega
  · intro hv hp
    refine ⟨v / 2 ^ 8 % 256, v % 256, ?_⟩
    rw [Serializer.WriteU16_ok s v hp]
    refine ⟨rfl, Appended_push s _, ?_, ?_, ?_⟩ <;> omega
  · intro hv hp
    rw [Serializer.WriteU8_ok s v hp]
    have h : v % 256 = v := by omega
    rw [h]
    exact ⟨rfl, Appended_push s _⟩
  · intro hp
    rw [Serializer.WriteBool_eq, Serializer.WriteU8_ok s _ hp]
    have h : (if value = true then 1 else 0) % 256 = if value = true then 1 else 0 := by
      cases value <;> rfl
    rw [h]
    exact ⟨rfl, Appended_push s _⟩

/-- Witness for C6: on an empty serializer `WriteU32(0x01020304)` succeeds,
and the bytes are `01 02 03 04`; `WriteU16(0x0102)` gives `01 02`. -/
theorem fixed_width_writers_big_endian_witness :
    (∃ b0 b1 b2 b3, (Serializer.WriteU32 ⟨0, 0, fun _ => 0⟩ 0x01020304).1 = Except.ok () ∧
        Appended ⟨0, 0, fun _ => 0⟩ (Serializer.WriteU32 ⟨0, 0, fun _ => 0⟩ 0x01020304).2
          [b0, b1, b2, b3] ∧
        b0 < 256 ∧ b1 < 256 ∧ b2 < 256 ∧ b3 < 256 ∧
        b0 * 2 ^ 24 + b1 * 2 ^ 16 + b2 * 2 ^ 8 + b3 = 0x01020304) ∧
    (Serializer.WriteU32 ⟨0, 0, fun _ => 0⟩ 0x01020304).2.Finish = [1, 2, 3, 4] ∧
    (Serializer.WriteU16 ⟨0, 0, fun _ => 0⟩ 0x0102).2.Finish = [1, 2] ∧
    (Serializer.WriteBool ⟨0, 0, fun _ => 0⟩ true).2.Finish = [1] :=
  ⟨(fixed_width_writers_big_endian ⟨0, 0, fun _ => 0⟩ 0x01020304 true).1 (by decide) (by decide),
    by decide, by decide, by decide⟩

/-- Claim C7: when `position + 4 + |src| ≤ 35000`, `WriteLengthEncoded(src)`
and `WriteString` on the same bytes succeed, append exactly the 4-byte
big-endian encoding of `|src|` followed by the bytes of `src`, and advance
`position` by `4 + |src|`. -/
theorem WriteLengthEncoded_appends (s : Serializer) (src : List Nat)
    (hfit : s.position + 4 + src.length ≤ MAX_PACKET_SIZE) :
    (s.WriteLengthEncoded src).1 = Except.ok () ∧
    Appended s (s.WriteLengthEncoded src).2 (BE32 src.length ++ src) ∧
    (s.WriteLengthEncoded src).2.position = s.position + (4 + src.length) ∧
    (s.WriteString src).1 = Except.ok () ∧
    Appended s (s.WriteString src).2 (BE32 src.length ++ src) ∧
    (s.WriteString src).2.position = s.position + (4 + src.length) := by
  rw [Serializer.WriteString_eq, Serializer.WriteLengthEncoded_push s src hfit]
  have hpos : (s.push (BE32 src.length ++ src)).position = s.position + (4 + src.length) := by
    rw [Serializer.push_position, List.length_append, BE32_length]
  exact ⟨rfl, Appended_push s _, hpos, rfl, Appended_push s _, hpos⟩

/-- Witness for C7: the string `"hi"` at offset 10 is written as
`00 00 00 02 68 69`, and the position becomes 16. -/
theorem WriteLengthEncoded_appends_witness :
    Appended ⟨0, 10, fun _ => 0xaa⟩
      (Serializer.WriteLengthEncoded ⟨0, 10, fun _ => 0xaa⟩ [0x68, 0x69]).2
      [0, 0, 0, 2, 0x68, 0x69] ∧
    (Serializer.WriteLengthEncoded ⟨0, 10, fun _ => 0xaa⟩ [0x68, 0x69]).2.position = 16 :=
  ⟨(WriteLengthEncoded_appends ⟨0, 10, fun _ => 0xaa⟩ [0x68, 0x69] (by decide)).2.1, by decide⟩

/-! ### The length placeholder -/

theorem PrepareLength_ok (s : Serializer) (h : s.position + 4 ≤ MAX_PACKET_SIZE) :
    s.PrepareLength = (Except.ok s.position, s.push (BE32 0)) := by
  unfold Serializer.PrepareLength
  rw [Serializer.WriteU32_ok s 0 h]
  rfl

theorem PrepareLength_error (s : Serializer) (hp : s.position ≤ MAX_PACKET_SIZE)
    (h : MAX_PACKET_SIZE < s.position + 4) : s.PrepareLength = (Except.error {}, s) := by
  unfold Serializer.PrepareLength
  rw [Serializer.WriteU32_error s 0 hp h]
  rfl

theorem CommitLength_eq (s : Serializer) (pos n : Nat) (h : s.position = pos + 4 + n)
    (hmax : s.position ≤ MAX_PACKET_SIZE) :
    s.CommitLength pos = { s with buffer := copy s.buffer pos (BE32 n) } := by
  unfold Serializer.CommitLength
  simp only [MAX_PACKET_SIZE] at hmax
  have hv : ((s.position + 2 ^ 64 - pos) % 2 ^ 64 + 2 ^ 64 - 4) % 2 ^ 64 = n := by omega
  simp only [hv, storeBE32_eq_copy]

/-- Claim C8: if `PrepareLength()` succeeds with result `at` and the serializer
is later in a state whose position is `n` bytes past the placeholder (the
writes that followed appended `n` bytes in total), then after
`CommitLength(at)` the four bytes at offsets `at .. at + 3` are the
big-endian encoding of `n`, and `position`, `skip` and every other byte of
the buffer are as before the call. -/
theorem CommitLength_patches_length (s s2 : Serializer) (pos n : Nat)
    (hp : s.position ≤ MAX_PACKET_SIZE)
    (hprep : s.PrepareLength.1 = Except.ok pos)
    (hn : s2.position = s.PrepareLength.2.position + n)
    (hmax : s2.position ≤ MAX_PACKET_SIZE) :
    pos = s.Mark ∧ n < 2 ^ 32 ∧
    (List.range 4).map (fun i => (s2.CommitLength pos).buffer (pos + i)) = BE32 n ∧
    (s2.CommitLength pos).position = s2.position ∧
    (s2.CommitLength pos).skip = s2.skip ∧
    ∀ i, i < pos ∨ pos + 4 ≤ i → (s2.CommitLength pos).buffer i = s2.buffer i := by
  have h4 : s.position + 4 ≤ MAX_PACKET_SIZE := by
    by_contra hc
    rw [PrepareLength_error s hp (by omega)] at hprep
    cases hprep
  rw [PrepareLength_ok s h4] at hprep hn
  simp only [Except.ok.injEq] at hprep
  simp only [Serializer.push_position, BE32_length] at hn
  subst hprep
  rw [CommitLength_eq s2 s.position n hn hmax]
  refine ⟨rfl, ?_, first_copy _ (BE32 n), rfl, rfl, ?_⟩
  · simp only [MAX_PACKET_SIZE] at hmax
    omega
  · intro i hi
    simp only [copy_apply, BE32_length]
    rw [if_neg]
    omega

/-- Witness for C8: a placeholder at offset 10 followed by three data bytes
is patched to `00 00 00 03`. -/
theorem CommitLength_patches_length_witness :
    (List.range 4).map (fun i =>
      (Serializer.CommitLength
        (Serializer.WriteNSpan (Serializer.PrepareLength ⟨0, 10, fun _ => 0xaa⟩).2 [1, 2, 3]).2
        10).buffer (10 + i)) = BE32 3 ∧
    (Serializer.CommitLength
        (Serializer.WriteNSpan (Serializer.PrepareLength ⟨0, 10, fun _ => 0xaa⟩).2 [1, 2, 3]).2
        10).Since 10 = [0, 0, 0, 3, 1, 2, 3] :=
  ⟨(CommitLength_patches_length ⟨0, 10, fun _ => 0xaa⟩
      (Serializer.WriteNSpan (Serializer.PrepareLength ⟨0, 10, fun _ => 0xaa⟩).2 [1, 2, 3]).2
      10 3 (by decide) rfl (by decide) (by decide)).2.2.1, by decide⟩

/-! ### The capacity check -/

theorem InsertNullByte_error (s : Serializer) (k : Nat) (h : MAX_PACKET_SIZE ≤ s.position) :
    s.InsertNullByte k = (Except.error {}, s) := by
  unfold Serializer.InsertNullByte
  rw [if_pos h]

theorem InsertNullByte_ok (s : Serializer) (k : Nat) (h : s.position < MAX_PACKET_SIZE) :
    (s.InsertNullByte k).1 = Except.ok () ∧
    (s.InsertNullByte k).2.position = s.position + 1 ∧
    (s.InsertNullByte k).2.skip = s.skip := by
  unfold Serializer.InsertNullByte
  rw [if_neg (by omega)]
  refine ⟨rfl, ?_, rfl⟩
  show (s.position + 1) % 2 ^ 64 = s.position + 1
  simp only [MAX_PACKET_SIZE] at h
  omega

theorem fails_iff_of (r : Thrown Unit) (p k : Nat)
    (hok : p + k ≤ MAX_PACKET_SIZE → r.1 = Except.ok () ∧ r.2.position = p + k)
    (herr : MAX_PACKET_SIZE < p + k → r.1 = Except.error {}) :
    (r.1 = Except.error {} ↔ MAX_PACKET_SIZE < p + k) ∧
    (r.1 = Except.ok () → r.2.position = p + k ∧ r.2.position ≤ MAX_PACKET_SIZE) := by
  by_cases h : p + k ≤ MAX_PACKET_SIZE
  · obtain ⟨h1, h2⟩ := hok h
    refine ⟨⟨fun he => ?_, fun hc => absurd hc (by omega)⟩, fun _ => ⟨h2, by omega⟩⟩
    rw [h1] at he
    cases he
  · have h1 := herr (by omega)
    refine ⟨⟨fun _ => by omega, fun _ => h1⟩, fun ho => ?_⟩
    rw [h1] at ho
    cases ho

theorem WriteOp.run_error (s : Serializer) (op : WriteOp) (hp : s.position ≤ MAX_PACKET_SIZE)
    (hfit : MAX_PACKET_SIZE < s.position + op.count) : (op.run s).1 = Except.error {} := by
  cases op with
  | WriteN size =>
    simp only [WriteOp.run, Serializer.WriteN_error s size hp hfit, andThen]
  | WriteZero size => simp only [WriteOp.run, Serializer.WriteZero_error s size hp hfit]
  | WriteNSpan src => simp only [WriteOp.run, Serializer.WriteNSpan_error s src hp hfit]
  | WriteU8 value => simp only [WriteOp.run, Serializer.WriteU8_error s value hp hfit]
  | WriteU16 value => simp only [WriteOp.run, Serializer.WriteU16_error s value hp hfit]
  | WriteU32 value => simp only [WriteOp.run, Serializer.WriteU32_error s value hp hfit]
  | WriteBool value =>
    simp only [WriteOp.run, Serializer.WriteBool_eq, Serializer.WriteU8_error s _ hp hfit]
  | WriteString str =>
    simp only [WriteOp.count] at hfit
    simp only [WriteOp.run, Serializer.WriteString_eq,
      Serializer.WriteLengthEncoded_error s str hp (by omega)]
  | WriteLengthEncoded src =>
    simp only [WriteOp.count] at hfit
    simp only [WriteOp.run, Serializer.WriteLengthEncoded_error s src hp (by omega)]
  | WriteBignum2 src =>
    simp only [WriteOp.count] at hfit
    exact Serializer.WriteBignum2_error s src hp (by rw [Serializer.mpint_length]; omega)
  | InsertNullByte k =>
    simp only [WriteOp.count] at hfit
    simp only [WriteOp.run, InsertNullByte_error s k (by omega)]

/-- Claim C9: on a serializer with `position = p ≤ 35000`, a write operation
that would append `k` bytes in total fails with `PacketTooLarge` if and only
if `p + k > 35000`; when it succeeds the position becomes `p + k`, which is
again at most 35000. -/
theorem write_fails_iff_exceeds_capacity (s : Serializer) (op : WriteOp)
    (hp : s.position ≤ MAX_PACKET_SIZE) :
    ((op.run s).1 = Except.error {} ↔ MAX_PACKET_SIZE < s.position + op.count) ∧
    ((op.run s).1 = Except.ok () →
      (op.run s).2.position = s.position + op.count ∧
      (op.run s).2.position ≤ MAX_PACKET_SIZE) := by
  apply fails_iff_of
  · intro hfit
    cases op with
    | WriteN size =>
      simp only [WriteOp.count] at hfit
      simp only [WriteOp.run, WriteOp.count, Serializer.WriteN_ok s size hfit, andThen, and_self]
    | WriteZero size =>
      simp only [WriteOp.count] at hfit
      simp only [WriteOp.run, WriteOp.count, Serializer.WriteZero_ok s size hfit,
        Serializer.push_position, List.length_replicate, and_self]
    | WriteNSpan src =>
      simp only [WriteOp.count] at hfit
      simp only [WriteOp.run, WriteOp.count, Serializer.WriteNSpan_ok s src hfit,
        Serializer.push_position, and_self]
    | WriteU8 value =>
      simp only [WriteOp.count] at hfit
      simp only [WriteOp.run, WriteOp.count, Serializer.WriteU8_ok s value hfit,
        Serializer.push_position, List.length_cons, List.length_nil, and_self]
    | WriteU16 value =>
      simp only [WriteOp.count] at hfit
      simp only [WriteOp.run, WriteOp.count, Serializer.WriteU16_ok s value hfit,
        Serializer.push_position, List.length_cons, List.length_nil, and_self]
    | WriteU32 value =>
      simp only [WriteOp.count] at hfit
      simp only [WriteOp.run, WriteOp.count, Serializer.WriteU32_ok s value hfit,
        Serializer.push_position, BE32_length, and_self]
    | WriteBool value =>
      simp only [WriteOp.count] at hfit
      simp only [WriteOp.run, WriteOp.count, Serializer.WriteBool_eq,
        Serializer.WriteU8_ok s _ hfit, Serializer.push_position, List.length_cons,
        List.length_nil, and_self]
    | WriteString str =>
      simp only [WriteOp.count] at hfit
      simp only [WriteOp.run, WriteOp.count, Serializer.WriteString_eq,
        Serializer.WriteLengthEncoded_push s str (by omega), Serializer.push_position,
        List.length_append, BE32_length, and_self]
    | WriteLengthEncoded src =>
      simp only [WriteOp.count] at hfit
      simp only [WriteOp.run, WriteOp.count,
        Serializer.WriteLengthEncoded_push s src (by omega), Serializer.push_position,
        List.length_append, BE32_length, and_self]
    | WriteBignum2 src =>
      simp only [WriteOp.count] at hfit
      simp only [WriteOp.run, WriteOp.count,
        Serializer.WriteBignum2_push s src (by rw [Serializer.mpint_length]; omega),
        Serializer.push_position, Serializer.mpint_length, and_self]
    | InsertNullByte k =>
      simp only [WriteOp.count] at hfit
      have h := InsertNullByte_ok s k (by omega)
      exact ⟨h.1, h.2.1⟩
  · exact WriteOp.run_error s op hp

/-- Witness for C9: at position 34998 a `WriteU32` fails (34998 + 4 > 35000)
and a `WriteU16` succeeds and moves the position to 35000. -/
theorem write_fails_iff_exceeds_capacity_witness :
    (WriteOp.run (WriteOp.WriteU32 7) ⟨0, 34998, fun _ => 0⟩).1 = Except.error {} ∧
    (WriteOp.run (WriteOp.WriteU16 7) ⟨0, 34998, fun _ => 0⟩).2.position = 35000 :=
  ⟨(write_fails_iff_exceeds_capacity ⟨0, 34998, fun _ => 0⟩ (WriteOp.WriteU32 7)
      (by decide)).1.2 (by decide),
    ((write_fails_iff_exceeds_capacity ⟨0, 34998, fun _ => 0⟩ (WriteOp.WriteU16 7)
      (by decide)).2 rfl).1⟩

/-! ### Sequences of writes -/

theorem WriteOp.run_eq_push (s : Serializer) (op : WriteOp) (w : List Nat)
    (hp : s.position ≤ MAX_PACKET_SIZE) (hw : op.bytes = some w)
    (hok : (op.run s).1 = Except.ok ()) :
    op.run s = (Except.ok (), s.push w) ∧ s.position + w.length ≤ MAX_PACKET_SIZE := by
  have hfit : s.position + op.count ≤ MAX_PACKET_SIZE := by
    by_contra hcon
    rw [WriteOp.run_error s op hp (by omega)] at hok
    cases hok
  clear hok
  cases op with
  | WriteN size => cases hw
  | InsertNullByte k => cases hw
  | WriteZero size =>
    simp only [WriteOp.bytes, Option.some.injEq] at hw
    subst hw
    simp only [WriteOp.count] at hfit
    exact ⟨Serializer.WriteZero_ok s size hfit, by rw [List.length_replicate]; exact hfit⟩
  | WriteNSpan src =>
    simp only [WriteOp.bytes, Option.some.injEq] at hw
    subst hw
    exact ⟨Serializer.WriteNSpan_ok s src hfit, hfit⟩
  | WriteU8 value =>
    simp only [WriteOp.bytes, Option.some.injEq] at hw
    subst hw
    exact ⟨Serializer.WriteU8_ok s value hfit, hfit⟩
  | WriteU16 value =>
    simp only [WriteOp.bytes, Option.some.injEq] at hw
    subst hw
    exact ⟨Serializer.WriteU16_ok s value hfit, hfit⟩
  | WriteU32 value =>
    simp only [WriteOp.bytes, Option.some.injEq] at hw
    subst hw
    exact ⟨Serializer.WriteU32_ok s value hfit, hfit⟩
  | WriteBool value =>
    simp only [WriteOp.bytes, Option.some.injEq] at hw
    subst hw
    refine ⟨?_, hfit⟩
    simp only [WriteOp.run, Serializer.WriteBool_eq]
    rw [Serializer.WriteU8_ok s _ hfit]
    cases value <;> rfl
  | WriteString str =>
    simp only [WriteOp.bytes, Option.some.injEq] at hw
    subst hw
    simp only [WriteOp.count] at hfit
    exact ⟨Serializer.WriteLengthEncoded_push s str (by omega),
      by rw [List.length_append, BE32_length]; omega⟩
  | WriteLengthEncoded src =>
    simp only [WriteOp.bytes, Option.some.injEq] at hw
    subst hw
    simp only [WriteOp.count] at hfit
    exact ⟨Serializer.WriteLengthEncoded_push s src (by omega),
      by rw [List.length_append, BE32_length]; omega⟩
  | WriteBignum2 src =>
    simp only [WriteOp.bytes, Option.some.injEq] at hw
    subst hw
    simp only [WriteOp.count] at hfit
    have h : s.position + (mpint src).length ≤ MAX_PACKET_SIZE := by
      rw [Serializer.mpint_length]; omega
    exact ⟨Serializer.WriteBignum2_push s src h, h⟩

theorem runSteps_writes (steps : List Step) (s : Serializer) (w : List Nat)
    (hp : s.position ≤ MAX_PACKET_SIZE) (hw : stepsBytes steps = some w)
    (hok : (runSteps steps s).1 = Except.ok ()) :
    (runSteps steps s).2.position = s.position + w.length ∧
    (runSteps steps s).2.position ≤ MAX_PACKET_SIZE ∧
    (runSteps steps s).2.buffer = copy s.buffer s.position w := by
  induction steps generalizing s w with
  | nil =>
    simp only [stepsBytes, Option.some.injEq] at hw
    subst hw
    exact ⟨rfl, hp, rfl⟩
  | cons st rest ih =>
    cases st with
    | Skip nbytes =>
      simp only [stepsBytes] at hw
      simp only [runSteps] at hok ⊢
      exact ih (s.Skip nbytes) w hp hw hok
    | write op =>
      simp only [stepsBytes] at hw
      cases hb : op.bytes with
      | none => rw [hb] at hw; cases hw
      | some w1 =>
        cases hr : stepsBytes rest with
        | none => rw [hb, hr] at hw; cases hw
        | some w2 =>
          rw [hb, hr] at hw
          simp only [Option.some.injEq] at hw
          subst hw
          have hop : (op.run s).1 = Except.ok () := by
            simp only [runSteps, andThen] at hok
            split at hok
            · cases hok
            · rename_i a s1 heq
              rw [heq]
          obtain ⟨hrun, hfit⟩ := WriteOp.run_eq_push s op w1 hp hb hop
          simp only [runSteps, hrun, andThen] at hok ⊢
          obtain ⟨h1, h2, h3⟩ := ih (s.push w1) w2 hfit hr hok
          refine ⟨?_, h2, ?_⟩
          · rw [h1, Serializer.push_position, List.length_append]
            omega
          · rw [h3]
            exact copy_append s.buffer s.position w1 w2

theorem andThen_skip {α β : Type} (r : Thrown α) (f : α → Serializer → Thrown β)
    (hf : ∀ a s1, (f a s1).2.skip = s1.skip) : (andThen r f).2.skip = r.2.skip := by
  unfold andThen
  split
  · rfl
  · exact hf _ _

theorem WriteN_skip (s : Serializer) (n : Nat) : (s.WriteN n).2.skip = s.skip := by
  unfold Serializer.WriteN
  split <;> rfl

theorem WriteNSpan_skip (s : Serializer) (src : List Nat) :
    (s.WriteNSpan src).2.skip = s.skip := by
  unfold Serializer.WriteNSpan
  rw [andThen_skip _ _ (fun _ _ => rfl), WriteN_skip]

theorem WriteU8_skip (s : Serializer) (v : Nat) : (s.WriteU8 v).2.skip = s.skip := by
  unfold Serializer.WriteU8
  rw [andThen_skip _ _ (fun _ _ => rfl), WriteN_skip]

theorem WriteU32_skip (s : Serializer) (v : Nat) : (s.WriteU32 v).2.skip = s.skip := by
  unfold Serializer.WriteU32
  rw [andThen_skip _ _ (fun _ _ => rfl), WriteN_skip]

theorem WriteLengthEncoded_skip (s : Serializer) (src : List Nat) :
    (s.WriteLengthEncoded src).2.skip = s.skip := by
  unfold Serializer.WriteLengthEncoded
  rw [andThen_skip _ _ (fun _ s1 => WriteNSpan_skip s1 src), WriteU32_skip]

theorem WriteOp.run_skip (s : Serializer) (op : WriteOp) : (op.run s).2.skip = s.skip := by
  cases op with
  | WriteN size =>
    simp only [WriteOp.run]
    rw [andThen_skip _ _ (fun _ _ => rfl), WriteN_skip]
  | WriteZero size =>
    simp only [WriteOp.run, Serializer.WriteZero]
    rw [andThen_skip _ _ (fun _ _ => rfl), WriteN_skip]
  | WriteNSpan src => exact WriteNSpan_skip s src
  | WriteU8 value => exact WriteU8_skip s value
  | WriteU16 value =>
    simp only [WriteOp.run, Serializer.WriteU16]
    rw [andThen_skip _ _ (fun _ _ => rfl), WriteN_skip]
  | WriteU32 value => exact WriteU32_skip s value
  | WriteBool value => exact WriteU8_skip s _
  | WriteString str => exact WriteLengthEncoded_skip s str
  | WriteLengthEncoded src => exact WriteLengthEncoded_skip s src
  | WriteBignum2 src =>
    simp only [WriteOp.run, Serializer.WriteBignum2]
    rw [andThen_skip, WriteU32_skip]
    intro _ s1
    split
    · rw [andThen_skip _ _ (fun _ s2 => WriteNSpan_skip s2 _), WriteU8_skip]
    · exact WriteNSpan_skip s1 _
  | InsertNullByte k =>
    simp only [WriteOp.run, Serializer.InsertNullByte]
    split <;> rfl

theorem runSteps_skip (steps : List Step) (s : Serializer)
    (hskip : s.skip + stepsSkip steps < 2 ^ 64)
    (hok : (runSteps steps s).1 = Except.ok ()) :
    (runSteps steps s).2.skip = s.skip + stepsSkip steps := by
  induction steps generalizing s with
  | nil => rfl
  | cons st rest ih =>
    cases st with
    | Skip nbytes =>
      simp only [stepsSkip] at hskip
      simp only [runSteps] at hok ⊢
      have hs : (s.Skip nbytes).skip = s.skip + nbytes := by
        show (s.skip + nbytes) % 2 ^ 64 = s.skip + nbytes
        omega
      rw [ih (s.Skip nbytes) (by rw [hs]; omega) hok, hs, stepsSkip]
      omega
    | write op =>
      simp only [stepsSkip] at hskip ⊢
      simp only [runSteps, andThen] at hok ⊢
      split at hok
      · cases hok
      · rename_i a s1 heq
        have hs : s1.skip = s.skip := by
          have : (op.run s).2 = s1 := by rw [heq]
          rw [← this]
          exact WriteOp.run_skip s op
        rw [ih s1 (by rw [hs]; exact hskip) hok, hs]

theorem runSteps_append (pre post : List Step) (s : Serializer) :
    runSteps (pre ++ post) s = andThen (runSteps pre s) fun _ s1 => runSteps post s1 := by
  induction pre generalizing s with
  | nil => rfl
  | cons st rest ih =>
    cases st with
    | Skip nbytes =>
      simp only [List.cons_append, runSteps]
      exact ih _
    | write op =>
      simp only [List.cons_append, runSteps, andThen]
      split
      · rfl
      · exact ih _

theorem stepsBytes_append (pre post : List Step) (w : List Nat)
    (hw : stepsBytes (pre ++ post) = some w) :
    ∃ w1 w2, stepsBytes pre = some w1 ∧ stepsBytes post = some w2 ∧ w = w1 ++ w2 := by
  induction pre generalizing w with
  | nil => exact ⟨[], w, rfl, hw, rfl⟩
  | cons st rest ih =>
    cases st with
    | Skip nbytes =>
      simp only [List.cons_append, stepsBytes] at hw ⊢
      exact ih w hw
    | write op =>
      have hw' : (match op.bytes, stepsBytes (rest ++ post) with
          | some w, some ws => some (w ++ ws)
          | _, _ => none) = some w := hw
      clear hw
      rename' hw' => hw
      simp only [stepsBytes]
      cases hb : op.bytes with
      | none => rw [hb] at hw; cases hw
      | some u =>
        cases hr : stepsBytes (rest ++ post) with
        | none => rw [hb, hr] at hw; cases hw
        | some v =>
          rw [hb, hr] at hw
          simp only [Option.some.injEq] at hw
          obtain ⟨w1, w2, h1, h2, h3⟩ := ih v hr
          refine ⟨u ++ w1, w2, ?_, h2, ?_⟩
          · rw [h1]
          · rw [← hw, h3, List.append_assoc]

/-- Claim C10: starting from a fresh serializer (`skip = 0`, `position = 0`,
any buffer contents), after a successful run of write operations that append
`w1, ..., wk` and of `Skip` calls totalling `n ≤ |w1| + ... + |wk|`,
`Finish()` returns `w1 ++ ... ++ wk` without its first `n` bytes; and no
later step changes a byte below the position an earlier part of the run had
reached. -/
theorem Finish_returns_appended_bytes (buffer0 : Nat → Nat) (steps : List Step) (w : List Nat)
    (hw : stepsBytes steps = some w)
    (hok : (runSteps steps ⟨0, 0, buffer0⟩).1 = Except.ok ())
    (hskip : stepsSkip steps ≤ w.length) :
    (runSteps steps ⟨0, 0, buffer0⟩).2.Finish = w.drop (stepsSkip steps) ∧
    ∀ pre post, steps = pre ++ post →
      ∀ i, i < (runSteps pre ⟨0, 0, buffer0⟩).2.position →
        (runSteps steps ⟨0, 0, buffer0⟩).2.buffer i
          = (runSteps pre ⟨0, 0, buffer0⟩).2.buffer i := by
  have h0 : (⟨0, 0, buffer0⟩ : Serializer).position ≤ MAX_PACKET_SIZE := Nat.zero_le _
  obtain ⟨h1, h2, h3⟩ := runSteps_writes steps ⟨0, 0, buffer0⟩ w h0 hw hok
  simp only [Nat.zero_add] at h1 h3
  have hlen : w.length ≤ MAX_PACKET_SIZE := by rw [← h1]; exact h2
  have h4 := runSteps_skip steps ⟨0, 0, buffer0⟩
    (by simp only [MAX_PACKET_SIZE] at hlen; simp only [Nat.zero_add]; omega) hok
  simp only [Nat.zero_add] at h4
  constructor
  · unfold Serializer.Finish
    rw [h1, h3, h4]
    have hd := drop_first (copy buffer0 0 w) 0 w.length
    simp only [Nat.zero_add, List.drop_zero] at hd
    have hc := first_copy (p := 0) buffer0 w
    simp only [Nat.zero_add] at hc
    rw [hd, hc]
  · intro pre post hsplit i hi
    subst hsplit
    obtain ⟨w1, w2, hw1, hw2, _⟩ := stepsBytes_append pre post w hw
    have hpw := runSteps_writes pre ⟨0, 0, buffer0⟩ w1 h0 hw1
    rw [runSteps_append] at hok ⊢
    generalize runSteps pre ⟨0, 0, buffer0⟩ = rp at hpw hok hi ⊢
    obtain ⟨r, s1⟩ := rp
    cases r with
    | error e => cases hok
    | ok a =>
      have hp1 : s1.position ≤ MAX_PACKET_SIZE := (hpw rfl).2.1
      have hok2 : (runSteps post s1).1 = Except.ok () := hok
      obtain ⟨_, _, hb⟩ := runSteps_writes post s1 w2 hp1 hw2 hok2
      show (runSteps post s1).2.buffer i = s1.buffer i
      have hi2 : i < s1.position := hi
      rw [hb, copy_apply, if_neg]
      omega

/-- Witness for C10: a string, a skip of two bytes and an mpint, written to a
fresh serializer, are returned by `Finish()` in order, without the first two
bytes. -/
theorem Finish_returns_appended_bytes_witness :
    (runSteps [Step.write (WriteOp.WriteString [0x68, 0x69]), Step.Skip 2,
        Step.write (WriteOp.WriteBignum2 [0x80])] ⟨0, 0, fun _ => 0xaa⟩).2.Finish
      = [0, 2, 0x68, 0x69, 0, 0, 0, 2, 0, 0x80] :=
  (Finish_returns_appended_bytes (fun _ => 0xaa)
    [Step.write (WriteOp.WriteString [0x68, 0x69]), Step.Skip 2,
      Step.write (WriteOp.WriteBignum2 [0x80])]
    [0, 0, 0, 2, 0x68, 0x69, 0, 0, 0, 2, 0, 0x80] rfl rfl (by decide)).1

/-! ### The delegated-open helper -/

/-- Claim C11 as stated fails: a received length of 4096 is within
`1 ≤ n ≤ 4096`, but `OpenFunction` throws `SocketBufferFullError` and does
not call `OpenReadOnly`. -/
theorem OpenFunction_rejects_full_buffer :
    (1 : Int) ≤ 4096 ∧ (4096 : Int) ≤ 4096 ∧
    (OpenFunction 4096 (fun _ => 0x61) (fun _ => some 5)).opened = none ∧
    (OpenFunction 4096 (fun _ => 0x61) (fun _ => some 5)).result
      = Except.error OpenError.SocketBufferFullError :=
  ⟨by decide, by decide, rfl, rfl⟩

/-- Claim C11, amended: `OpenFunction` goes on to open the received path
exactly for the received lengths `1 ≤ n ≤ 4095`; it rejects the message
before opening anything exactly when the receive failed (`n < 0`), the
socket was closed (`n = 0`) or the buffer is full (`n ≥ 4096`). -/
theorem OpenFunction_accepts_iff (nbytes : Int) (path : Nat → Nat)
    (OpenReadOnly : List Nat → Option Nat) :
    ((OpenFunction nbytes path OpenReadOnly).opened ≠ none ↔ 1 ≤ nbytes ∧ nbytes ≤ 4095) ∧
    ((OpenFunction nbytes path OpenReadOnly).result = Except.error OpenError.FailedToReceive
      ↔ nbytes < 0) ∧
    ((OpenFunction nbytes path OpenReadOnly).result
      = Except.error OpenError.SocketClosedPrematurelyError ↔ nbytes = 0) ∧
    ((OpenFunction nbytes path OpenReadOnly).result
      = Except.error OpenError.SocketBufferFullError ↔ 4096 ≤ nbytes) := by
  unfold OpenFunction
  simp only [sizeof_path]
  split
  · simp; omega
  · split
    · simp; omega
    · split
      · simp; omega
      · split <;> simp <;> omega

/-- Claim C12: on error the helper sends no descriptor.  `OpenFunction` calls
`EasySendMessage` if and only if `Receive` returned `0 < n < 4096` and
`OpenReadOnly` succeeded, and then exactly once, with the opened descriptor;
on every other path it ends with an exception and has sent nothing, and
`DelegateOpen`, which can receive a defined descriptor only if one was sent,
then fails. -/
theorem OpenFunction_sends_iff (nbytes : Int) (path : Nat → Nat)
    (OpenReadOnly : List Nat → Option Nat) (send_nbytes : Int)
    (received : Except DelegateError (Option Nat)) :
    ((OpenFunction nbytes path OpenReadOnly).sent ≠ [] ↔
      0 < nbytes ∧ nbytes < 4096 ∧
        OpenReadOnly (cString (store path nbytes.toNat 0) 0 sizeof_path) ≠ none) ∧
    (∀ fd, 0 < nbytes → nbytes < 4096 →
      OpenReadOnly (cString (store path nbytes.toNat 0) 0 sizeof_path) = some fd →
      (OpenFunction nbytes path OpenReadOnly).sent = [fd] ∧
      (OpenFunction nbytes path OpenReadOnly).result = Except.ok 0) ∧
    ((OpenFunction nbytes path OpenReadOnly).sent = [] →
      ∃ e, (OpenFunction nbytes path OpenReadOnly).result = Except.error e) ∧
    ((OpenFunction nbytes path OpenReadOnly).sent = [] →
      (∀ fd, received = Except.ok (some fd) →
        fd ∈ (OpenFunction nbytes path OpenReadOnly).sent) →
      ∃ e, DelegateOpen send_nbytes received = Except.error e) := by
  refine ⟨?_, ?_, ?_, ?_⟩
  · unfold OpenFunction
    simp only [sizeof_path]
    split
    · simp; omega
    · split
      · simp; omega
      · split
        · simp; omega
        · split
          · rename_i h; simp [h]
          · rename_i h; simp [h]; omega
  · intro fd h0 h1 hfd
    unfold OpenFunction
    simp only [sizeof_path] at hfd ⊢
    rw [if_neg (by omega), if_neg (by omega), if_neg (by omega)]
    simp only [hfd, and_self]
  · unfold OpenFunction
    split
    · exact fun _ => ⟨_, rfl⟩
    · split
      · exact fun _ => ⟨_, rfl⟩
      · split
        · exact fun _ => ⟨_, rfl⟩
        · dsimp only
          split
          · exact fun _ => ⟨_, rfl⟩
          · intro h; cases h
  · intro hs hchan
    unfold DelegateOpen
    split
    · exact ⟨_, rfl⟩
    · split
      · exact ⟨_, rfl⟩
      · exact ⟨_, rfl⟩
      · rename_i fd
        have := hchan fd rfl
        rw [hs] at this
        cases this

/-- Witness for C12: when `OpenReadOnly` fails on the received path `"a"`,
nothing is sent, the helper ends with an exception, and `DelegateOpen`,
receiving an undefined descriptor, fails with "Bad number of fds". -/
theorem OpenFunction_sends_iff_witness :
    (OpenFunction 1 (fun _ => 0x61) (fun _ => none)).sent = [] ∧
    (∃ e, DelegateOpen 1 (Except.ok none) = Except.error e) ∧
    (OpenFunction 1 (fun _ => 0x61) (fun _ => some 7)).sent = [7] :=
  ⟨by decide,
    (OpenFunction_sends_iff 1 (fun _ => 0x61) (fun _ => none) 1 (Except.ok none)).2.2.2
      (by decide) (fun fd h => by cases h),
    by decide⟩

theorem cString_store (path : Nat → Nat) (limit start n : Nat) (h1 : start ≤ n)
    (h2 : n < start + limit) :
    cString (store path n 0) start limit
      = ((List.range (n - start)).map (fun i => path (start + i))).takeWhile (fun c => c != 0) := by
  induction limit generalizing start with
  | zero => omega
  | succ limit ih =>
    rw [cString, store_apply]
    by_cases hs : start = n
    · subst hs
      simp
    · have hk : n - start = (n - (start + 1)) + 1 := by omega
      rw [if_neg hs, hk, List.range_succ_eq_map, List.map_cons, List.map_map]
      by_cases hz : path start = 0
      · simp [hz]
      · rw [if_neg hz, ih (start + 1) (by omega) (by omega)]
        simp only [Nat.add_zero, List.takeWhile_cons, bne_iff_ne, ne_eq, hz, not_false_eq_true,
          decide_True, if_true]
        congr 2
        apply List.map_congr_left
        intro i _
        simp only [Function.comp, Nat.succ_eq_add_one]
        congr 1
        omega

/-- Claim C19: whenever `OpenFunction` reaches the store `path[nbytes] = 0`,
`0 < nbytes ≤ 4095` holds, so the index is inside the 4096-byte array; and
the string passed to `OpenReadOnly` is made of the received bytes only: it
is the received bytes up to their first NUL, all of them when there is none. -/
theorem OpenFunction_terminator_in_bounds (nbytes : Int) (path : Nat → Nat)
    (OpenReadOnly : List Nat → Option Nat) :
    (∀ index, (OpenFunction nbytes path OpenReadOnly).terminator = some index →
      0 < nbytes ∧ nbytes ≤ 4095 ∧ (index : Int) = nbytes ∧ index < sizeof_path) ∧
    (∀ name, (OpenFunction nbytes path OpenReadOnly).opened = some name →
      name = (first path nbytes.toNat).takeWhile (fun c => c != 0) ∧
      name <+: first path nbytes.toNat ∧
      ((∀ c ∈ first path nbytes.toNat, c ≠ 0) → name = first path nbytes.toNat)) := by
  have key : ∀ name, 0 < nbytes → nbytes.toNat < sizeof_path →
      name = cString (store path nbytes.toNat 0) 0 sizeof_path →
      name = (first path nbytes.toNat).takeWhile (fun c => c != 0) ∧
      name <+: first path nbytes.toNat ∧
      ((∀ c ∈ first path nbytes.toNat, c ≠ 0) → name = first path nbytes.toNat) := by
    intro name h0 h1 hname
    have h := cString_store path sizeof_path 0 nbytes.toNat (Nat.zero_le _) (by omega)
    simp only [Nat.sub_zero, Nat.zero_add] at h
    have hf : (List.range nbytes.toNat).map (fun i => path i) = first path nbytes.toNat := rfl
    rw [hf] at h
    rw [hname, h]
    refine ⟨rfl, List.takeWhile_prefix _, ?_⟩
    intro hall
    rw [List.takeWhile_eq_self_iff]
    intro c hc
    simpa using hall c hc
  unfold OpenFunction
  simp only [sizeof_path] at key ⊢
  split
  · refine ⟨?_, ?_⟩ <;> intro _ h <;> cases h
  · split
    · refine ⟨?_, ?_⟩ <;> intro _ h <;> cases h
    · split
      · refine ⟨?_, ?_⟩ <;> intro _ h <;> cases h
      · split
        · refine ⟨fun index h => ?_, fun name h => ?_⟩
          · simp only [Option.some.injEq] at h
            omega
          · simp only [Option.some.injEq] at h
            exact key name (by omega) (by omega) h.symm
        · refine ⟨fun index h => ?_, fun name h => ?_⟩
          · simp only [Option.some.injEq] at h
            omega
          · simp only [Option.some.injEq] at h
            exact key name (by omega) (by omega) h.symm

/-! ### More on `Padding` -/

/-- Claim C13: `Padding size` is the least `p ≥ 4` with `size + p ≥ 16` and
`(size + p) mod 8 = 0`, so the packet with its 4-byte length field is a
multiple of 8; and `4 ≤ Padding size ≤ 11` whenever `size ≥ 5`, which fits the
one-byte padding-length field. -/
theorem Padding_is_least (size : Nat) :
    (4 ≤ Padding size ∧ 16 ≤ size + Padding size ∧ (size + Padding size) % 8 = 0) ∧
    (∀ p, 4 ≤ p → 16 ≤ size + p → (size + p) % 8 = 0 → Padding size ≤ p) ∧
    (5 ≤ size → 4 ≤ Padding size ∧ Padding size ≤ 11 ∧ Padding size < 256) := by
  rw [Padding_eq]
  refine ⟨?_, ?_, ?_⟩
  · split <;> omega
  · intro p h1 h2 h3
    split <;> omega
  · intro h
    split <;> omega

/-! ### Rejected writes -/

/-- Claim C17: `WriteN(n)` is all-or-nothing, a failing call leaves the
serializer unchanged.  When `WriteLengthEncoded(src)` or `WriteString` fails
on a serializer at position `p ≤ 35000`, the position afterwards is `p` if
`p + 4 > 35000` and `p + 4` otherwise (the length prefix stays committed);
`skip` and the bytes below `p` are unchanged in both cases. -/
theorem rejected_write_state (s : Serializer) (n : Nat) (src : List Nat)
    (hp : s.position ≤ MAX_PACKET_SIZE) :
    ((s.WriteN n).1 = Except.error {} → (s.WriteN n).2 = s) ∧
    ((s.WriteLengthEncoded src).1 = Except.error {} →
      (s.WriteLengthEncoded src).2.position
        = (if MAX_PACKET_SIZE < s.position + 4 then s.position else s.position + 4) ∧
      (s.WriteLengthEncoded src).2.skip = s.skip ∧
      ∀ i, i < s.position → (s.WriteLengthEncoded src).2.buffer i = s.buffer i) ∧
    ((s.WriteString src).1 = Except.error {} →
      (s.WriteString src).2.position
        = (if MAX_PACKET_SIZE < s.position + 4 then s.position else s.position + 4) ∧
      (s.WriteString src).2.skip = s.skip ∧
      ∀ i, i < s.position → (s.WriteString src).2.buffer i = s.buffer i) := by
  have hle : (s.WriteLengthEncoded src).1 = Except.error {} →
      (s.WriteLengthEncoded src).2.position
        = (if MAX_PACKET_SIZE < s.position + 4 then s.position else s.position + 4) ∧
      (s.WriteLengthEncoded src).2.skip = s.skip ∧
      ∀ i, i < s.position → (s.WriteLengthEncoded src).2.buffer i = s.buffer i := by
    intro hfail
    have hfit : MAX_PACKET_SIZE < s.position + 4 + src.length := by
      by_contra hc
      rw [Serializer.WriteLengthEncoded_push s src (by omega)] at hfail
      cases hfail
    rw [Serializer.WriteLengthEncoded_error s src hp hfit]
    by_cases h4 : MAX_PACKET_SIZE < s.position + 4
    · rw [if_pos h4, if_pos h4]
      exact ⟨rfl, rfl, fun _ _ => rfl⟩
    · simp only [if_neg h4, Serializer.push_position, BE32_length, Serializer.push_skip, true_and]
      intro i hi
      simp only [Serializer.push, copy_apply]
      rw [if_neg]
      omega
  refine ⟨?_, hle, ?_⟩
  · intro h
    unfold Serializer.WriteN at h ⊢
    split
    · rfl
    · rename_i heq
      rw [heq] at h
      cases h
  · rw [Serializer.WriteString_eq]
    exact hle

/-- Witness for C17: at position 34998 the length prefix does not fit,
the position stays; at 34990 it fits, the data does not, the position ends at
34994. -/
theorem rejected_write_state_witness :
    (Serializer.WriteLengthEncoded ⟨0, 34998, fun _ => 0⟩ [1, 2, 3]).2.position = 34998 ∧
    (Serializer.WriteLengthEncoded ⟨0, 34990, fun _ => 0⟩ (List.replicate 7 1)).2.position
      = 34994 :=
  ⟨((rejected_write_state ⟨0, 34998, fun _ => 0⟩ 0 [1, 2, 3] (by decide)).2.1 rfl).1,
    ((rejected_write_state ⟨0, 34990, fun _ => 0⟩ 0 (List.replicate 7 1) (by decide)).2.1 rfl).1⟩

/-! ### The placeholder idiom against the direct writer -/

theorem copy_overwrite (buffer : Nat → Nat) (p : Nat) (x y : List Nat)
    (h : x.length = y.length) : copy (copy buffer p x) p y = copy buffer p y := by
  funext i
  simp only [copy_apply, h]
  split <;> rfl

theorem copy_comm (buffer : Nat → Nat) (p1 p2 : Nat) (x v : List Nat)
    (h : p1 + x.length ≤ p2) :
    copy (copy buffer p1 x) p2 v = copy (copy buffer p2 v) p1 x := by
  funext i
  simp only [copy_apply]
  by_cases h1 : p2 ≤ i ∧ i < p2 + v.length
  · rw [if_pos h1, if_neg (by omega), if_pos h1]
  · rw [if_neg h1]
    by_cases h2 : p1 ≤ i ∧ i < p1 + x.length
    · rw [if_pos h2, if_pos h2]
    · rw [if_neg h2, if_neg h2, if_neg h1]

theorem Appended_iff_eq_push (s s' : Serializer) (w : List Nat) :
    Appended s s' w ↔ s' = s.push w := by
  constructor
  · rintro ⟨h1, h2, h3, h4⟩
    have hb : s'.buffer = copy s.buffer s.position w := by
      funext i
      rw [copy_apply]
      by_cases hi : s.position ≤ i ∧ i < s.position + w.length
      · rw [if_pos hi]
        unfold Serializer.Since at h3
        rw [h2, drop_first] at h3
        have hg := congrArg (fun l => l.getD (i - s.position) 0) h3
        simp only [List.getD_eq_getElem?_getD, List.getElem?_map] at hg
        rw [List.getElem?_range (by omega)] at hg
        simp only [Option.map_some', Option.getD_some] at hg
        rw [List.getD_eq_getElem?_getD, ← hg]
        congr 1
        omega
      · rw [if_neg hi]
        exact h4 i (by omega)
    cases s'
    simp only [Serializer.push] at *
    subst h1 h2 hb
    rfl
  · intro h
    rw [h]
    exact Appended_push s w

theorem writeWithPlaceholder_push (s : Serializer) (src : List Nat)
    (hfit : s.position + 4 + src.length ≤ MAX_PACKET_SIZE) :
    writeWithPlaceholder s src = (Except.ok (), s.push (BE32 src.length ++ src)) := by
  unfold writeWithPlaceholder
  rw [PrepareLength_ok s (by omega)]
  simp only [andThen]
  rw [Serializer.WriteNSpan_ok _ _ (by simp only [Serializer.push_position, BE32_length]; omega)]
  simp only []
  rw [CommitLength_eq _ s.position src.length
    (by simp only [Serializer.push_position, BE32_length])
    (by simp only [Serializer.push_position, BE32_length]; omega)]
  simp only [Serializer.push, BE32_length, Prod.mk.injEq, true_and]
  have h1 := copy_comm (copy s.buffer s.position (BE32 0)) s.position (s.position + 4)
    (BE32 src.length) src (by rw [BE32_length])
  rw [copy_overwrite _ _ _ _ (by rw [BE32_length, BE32_length])] at h1
  rw [← h1, ← copy_append, BE32_length, List.length_append, BE32_length]
  congr 1
  omega

theorem writeWithPlaceholder_error (s : Serializer) (src : List Nat)
    (hp : s.position ≤ MAX_PACKET_SIZE)
    (hfit : MAX_PACKET_SIZE < s.position + 4 + src.length) :
    writeWithPlaceholder s src = (Except.error {},
      if MAX_PACKET_SIZE < s.position + 4 then s else s.push (BE32 0)) := by
  unfold writeWithPlaceholder
  by_cases h4 : MAX_PACKET_SIZE < s.position + 4
  · rw [PrepareLength_error s hp h4, if_pos h4]
    rfl
  · rw [PrepareLength_ok s (by omega), if_neg h4]
    simp only [andThen]
    rw [Serializer.WriteNSpan_error _ _
      (by simp only [Serializer.push_position, BE32_length]; omega)
      (by simp only [Serializer.push_position, BE32_length]; omega)]

/-- Claim C15 as stated fails: at position 34996 with one byte of data both
ways fail and leave the position at 35000, but the byte at offset 34999,
below the position, is `0` after the placeholder idiom and `1` after
`WriteLengthEncoded`. -/
theorem placeholder_differs_after_failure :
    (writeWithPlaceholder ⟨0, 34996, fun _ => 0xaa⟩ [7]).1 = Except.error {} ∧
    (Serializer.WriteLengthEncoded ⟨0, 34996, fun _ => 0xaa⟩ [7]).1 = Except.error {} ∧
    (writeWithPlaceholder ⟨0, 34996, fun _ => 0xaa⟩ [7]).2.position = 35000 ∧
    (Serializer.WriteLengthEncoded ⟨0, 34996, fun _ => 0xaa⟩ [7]).2.position = 35000 ∧
    (writeWithPlaceholder ⟨0, 34996, fun _ => 0xaa⟩ [7]).2.buffer 34999 = 0 ∧
    (Serializer.WriteLengthEncoded ⟨0, 34996, fun _ => 0xaa⟩ [7]).2.buffer 34999 = 1 :=
  ⟨rfl, rfl, by decide, by decide, by decide, by decide⟩

/-- Claim C15, amended: on a serializer with `position ≤ 35000`, the idiom
`at = PrepareLength(); WriteN(src); CommitLength(at)` fails with
`PacketTooLarge` if and only if `WriteLengthEncoded(src)` does; when they
succeed they leave exactly the same state; when they fail they leave the same
`position` and `skip` and the same bytes outside the four bytes of the
length field. -/
theorem placeholder_agrees_with_WriteLengthEncoded (s : Serializer) (src : List Nat)
    (hp : s.position ≤ MAX_PACKET_SIZE) :
    ((writeWithPlaceholder s src).1 = Except.error {} ↔
      (s.WriteLengthEncoded src).1 = Except.error {}) ∧
    ((s.WriteLengthEncoded src).1 = Except.ok () →
      writeWithPlaceholder s src = s.WriteLengthEncoded src) ∧
    ((s.WriteLengthEncoded src).1 = Except.error {} →
      (writeWithPlaceholder s src).2.position = (s.WriteLengthEncoded src).2.position ∧
      (writeWithPlaceholder s src).2.skip = (s.WriteLengthEncoded src).2.skip ∧
      ∀ i, i < s.position ∨ s.position + 4 ≤ i →
        (writeWithPlaceholder s src).2.buffer i = (s.WriteLengthEncoded src).2.buffer i) := by
  by_cases hfit : s.position + 4 + src.length ≤ MAX_PACKET_SIZE
  · rw [writeWithPlaceholder_push s src hfit, Serializer.WriteLengthEncoded_push s src hfit]
    refine ⟨Iff.rfl, fun _ => rfl, fun h => ?_⟩
    cases h
  · rw [writeWithPlaceholder_error s src hp (by omega),
      Serializer.WriteLengthEncoded_error s src hp (by omega)]
    refine ⟨Iff.rfl, fun h => ?_, fun _ => ?_⟩
    · cases h
    by_cases h4 : MAX_PACKET_SIZE < s.position + 4
    · rw [if_pos h4, if_pos h4]
      exact ⟨rfl, rfl, fun _ _ => rfl⟩
    · rw [if_neg h4, if_neg h4]
      refine ⟨rfl, rfl, fun i hi => ?_⟩
      simp only [Serializer.push, copy_apply, BE32_length]
      rw [if_neg (by omega), if_neg (by omega)]

/-- Witness for C15: at offset 10 both ways write `00 00 00 02 68 69`. -/
theorem placeholder_agrees_with_WriteLengthEncoded_witness :
    writeWithPlaceholder ⟨0, 10, fun _ => 0xaa⟩ [0x68, 0x69]
      = Serializer.WriteLengthEncoded ⟨0, 10, fun _ => 0xaa⟩ [0x68, 0x69] ∧
    (writeWithPlaceholder ⟨0, 10, fun _ => 0xaa⟩ [0x68, 0x69]).2.Since 10
      = [0, 0, 0, 2, 0x68, 0x69] :=
  ⟨(placeholder_agrees_with_WriteLengthEncoded ⟨0, 10, fun _ => 0xaa⟩ [0x68, 0x69]
      (by decide)).2.1 rfl, by decide⟩

/-! ### The ECDSA public key blob -/

theorem GetAlgorithm_length : ECDSAKey.GetAlgorithm.length = 19 := by decide

theorem push_CommitLength (s : Serializer) (pre q : List Nat)
    (hmax : s.position + pre.length + 4 + q.length ≤ MAX_PACKET_SIZE) :
    ((s.push (pre ++ BE32 0)).push q).CommitLength (s.position + pre.length)
      = s.push (pre ++ (BE32 q.length ++ q)) := by
  rw [CommitLength_eq _ (s.position + pre.length) q.length
    (by simp only [Serializer.push_position, List.length_append, BE32_length]; omega)
    (by simp only [Serializer.push_position, List.length_append, BE32_length]; omega)]
  simp only [Serializer.push, Serializer.mk.injEq, true_and]
  refine ⟨by simp only [List.length_append, BE32_length]; omega, ?_⟩
  rw [← copy_append, ← copy_append, ← copy_append, List.length_append, BE32_length, BE32_length]
  have hp : s.position + (pre.length + 4) = s.position + pre.length + 4 := by omega
  rw [hp, copy_comm _ (s.position + pre.length) (s.position + pre.length + 4) (BE32 q.length) q
    (by rw [BE32_length]), copy_comm _ (s.position + pre.length) (s.position + pre.length + 4)
    (BE32 0) q (by rw [BE32_length]), copy_overwrite _ _ _ _ (by rw [BE32_length, BE32_length])]

/-- Claim C18: when there is room and `SerializePublicKey` appends the byte
sequence `q`, `ECDSAKey::SerializePublic` succeeds and appends exactly
`BE32(19) ++ "ecdsa-sha2-nistp256" ++ BE32(8) ++ "nistp256" ++ BE32(|q|) ++ q`,
the first string being the value of `GetAlgorithm()`. -/
theorem SerializePublic_layout (SerializePublicKey : Serializer → Thrown Unit)
    (s : Serializer) (q : List Nat)
    (hkey : ∀ t : Serializer, t.position + q.length ≤ MAX_PACKET_SIZE →
      (SerializePublicKey t).1 = Except.ok () ∧ Appended t (SerializePublicKey t).2 q)
    (hfit : s.position + (4 + 19 + 4 + 8 + 4 + q.length) ≤ MAX_PACKET_SIZE) :
    (ECDSAKey.SerializePublic SerializePublicKey s).1 = Except.ok () ∧
    Appended s (ECDSAKey.SerializePublic SerializePublicKey s).2
      (BE32 19 ++ AsBytes "ecdsa-sha2-nistp256" ++ BE32 8 ++ AsBytes "nistp256" ++
        BE32 q.length ++ q) ∧
    ECDSAKey.GetAlgorithm = AsBytes "ecdsa-sha2-nistp256" := by
  have hcurve : (AsBytes "nistp256").length = 8 := by decide
  have halg := GetAlgorithm_length
  have hA : (BE32 19 ++ ECDSAKey.GetAlgorithm).length = 23 := by
    rw [List.length_append, BE32_length, halg]
  have hB : (BE32 8 ++ AsBytes "nistp256").length = 12 := by
    rw [List.length_append, BE32_length, hcurve]
  have h1 : s.WriteString ECDSAKey.GetAlgorithm
      = (Except.ok (), s.push (BE32 19 ++ ECDSAKey.GetAlgorithm)) := by
    rw [Serializer.WriteString_eq, Serializer.WriteLengthEncoded_push s _ (by omega), halg]
  have h2 : (s.push (BE32 19 ++ ECDSAKey.GetAlgorithm)).WriteString (AsBytes "nistp256")
      = (Except.ok (), s.push ((BE32 19 ++ ECDSAKey.GetAlgorithm) ++
          (BE32 8 ++ AsBytes "nistp256"))) := by
    rw [Serializer.WriteString_eq, Serializer.WriteLengthEncoded_push _ _
      (by rw [Serializer.push_position, hA]; omega), hcurve, Serializer.push_push]
  generalize hpre : (BE32 19 ++ ECDSAKey.GetAlgorithm) ++ (BE32 8 ++ AsBytes "nistp256") = pre
    at h2
  have hlen : pre.length = 35 := by rw [← hpre, List.length_append, hA, hB]
  have h3 : (s.push pre).PrepareLength
      = (Except.ok (s.position + pre.length), s.push (pre ++ BE32 0)) := by
    rw [PrepareLength_ok _ (by rw [Serializer.push_position]; omega), Serializer.push_push]
    rfl
  obtain ⟨hok, happ⟩ := hkey (s.push (pre ++ BE32 0)) (by
    rw [Serializer.push_position, List.length_append, BE32_length]; omega)
  rw [Appended_iff_eq_push] at happ
  have h4 : SerializePublicKey (s.push (pre ++ BE32 0))
      = (Except.ok (), (s.push (pre ++ BE32 0)).push q) := by
    rw [← happ, ← hok]
  have hall : ECDSAKey.SerializePublic SerializePublicKey s
      = (Except.ok (), s.push (pre ++ (BE32 q.length ++ q))) := by
    unfold ECDSAKey.SerializePublic
    simp only [h1, andThen, h2, h3, h4]
    rw [push_CommitLength s pre q (by omega)]
  rw [hall]
  refine ⟨rfl, ?_, rfl⟩
  have e : BE32 19 ++ AsBytes "ecdsa-sha2-nistp256" ++ BE32 8 ++ AsBytes "nistp256" ++
      BE32 q.length ++ q = pre ++ (BE32 q.length ++ q) := by
    rw [← hpre]
    simp only [List.append_assoc, ECDSAKey.GetAlgorithm]
  rw [e]
  exact Appended_push s _

/-- Witness for C18: with a `SerializePublicKey` that writes the three bytes
`04 01 02`, the blob ends with `00 00 00 03 04 01 02` and is 42 bytes long. -/
theorem SerializePublic_layout_witness :
    Appended ⟨0, 0, fun _ => 0⟩
      (ECDSAKey.SerializePublic (fun t => t.WriteNSpan [4, 1, 2]) ⟨0, 0, fun _ => 0⟩).2
      (BE32 19 ++ AsBytes "ecdsa-sha2-nistp256" ++ BE32 8 ++ AsBytes "nistp256" ++
        BE32 3 ++ [4, 1, 2]) ∧
    (ECDSAKey.SerializePublic (fun t => t.WriteNSpan [4, 1, 2])
      ⟨0, 0, fun _ => 0⟩).2.position = 42 :=
  ⟨(SerializePublic_layout (fun t => t.WriteNSpan [4, 1, 2]) ⟨0, 0, fun _ => 0⟩ [4, 1, 2]
      (fun t ht => by
        dsimp only
        rw [Serializer.WriteNSpan_ok t [4, 1, 2] ht]
        exact ⟨rfl, Appended_push t _⟩)
      (by decide)).2.1, by decide⟩

/-! ### `InsertNullByte` -/

theorem copy_backward_apply (count : Nat) (buffer : Nat → Nat) (last : Nat)
    (h : count ≤ last) :
    (copy_backward buffer last (last + 1) count).2 = last + 1 - count ∧
    ∀ i, (copy_backward buffer last (last + 1) count).1 i
      = if last - count < i ∧ i ≤ last then buffer (i - 1) else buffer i := by
  induction count generalizing buffer last with
  | zero =>
    refine ⟨rfl, fun i => ?_⟩
    rw [copy_backward, if_neg (by omega)]
  | succ n ih =>
    have hl : last - 1 + 1 = last := by omega
    have h1 := ih (store buffer last (buffer (last - 1))) (last - 1) (by omega)
    rw [hl] at h1
    rw [copy_backward, Nat.add_sub_cancel]
    refine ⟨by rw [h1.1]; omega, fun i => ?_⟩
    rw [h1.2 i]
    simp only [store_apply]
    by_cases hi : last - 1 - n < i ∧ i ≤ last - 1
    · rw [if_pos hi, if_neg (by omega), if_pos (by omega)]
    · rw [if_neg hi]
      by_cases he : i = last
      · rw [if_pos he, if_pos (by omega), he]
      · rw [if_neg he, if_neg (by omega)]

theorem first_add (buffer : Nat → Nat) (a b : Nat) :
    first buffer (a + b) = first buffer a ++ (List.range b).map (fun i => buffer (a + i)) := by
  unfold first
  rw [List.range_add, List.map_append, List.map_map]
  rfl

/-- Claim C16: on a serializer with `position = p < 35000` and `k ≤ p - skip`,
`InsertNullByte(k)` succeeds, the position becomes `p + 1` and the contents
`b[0..p-k) ++ [0x00] ++ b[p-k..p)`: the last `k` bytes move one place up in
their order, a zero byte stands before them, and `skip` and every byte below
offset `p - k` are unchanged; when `p ≥ 35000` it fails with
`PacketTooLarge` and changes nothing. -/
theorem InsertNullByte_shifts_tail (s : Serializer) (k : Nat) :
    (s.position < MAX_PACKET_SIZE → k ≤ s.position - s.skip →
      (s.InsertNullByte k).1 = Except.ok () ∧
      (s.InsertNullByte k).2.position = s.position + 1 ∧
      (s.InsertNullByte k).2.skip = s.skip ∧
      first (s.InsertNullByte k).2.buffer (s.position + 1)
        = (first s.buffer s.position).take (s.position - k) ++ [0] ++
          (first s.buffer s.position).drop (s.position - k) ∧
      ∀ i, i < s.position - k → (s.InsertNullByte k).2.buffer i = s.buffer i) ∧
    (MAX_PACKET_SIZE ≤ s.position → s.InsertNullByte k = (Except.error {}, s)) := by
  refine ⟨fun hp hk => ?_, InsertNullByte_error s k⟩
  have hk' : k ≤ s.position := by omega
  obtain ⟨h1, h2, h3⟩ := InsertNullByte_ok s k hp
  refine ⟨h1, h2, h3, ?_, ?_⟩
  · obtain ⟨c1, c2⟩ := copy_backward_apply k s.buffer s.position hk'
    have hbuf : ∀ i, (s.InsertNullByte k).2.buffer i
        = if i = s.position - k then 0
          else if s.position - k < i ∧ i ≤ s.position then s.buffer (i - 1) else s.buffer i := by
      intro i
      unfold Serializer.InsertNullByte
      rw [if_neg (by omega)]
      simp only [Serializer.CommitWriteN, store_apply, c1, c2]
      have : s.position + 1 - k - 1 = s.position - k := by omega
      rw [this]
    have hsplit : s.position + 1 = (s.position - k) + (1 + k) := by omega
    have hsplit2 : s.position = (s.position - k) + k := by omega
    rw [hsplit, first_add, List.range_add, List.map_append, List.append_assoc]
    have ht : (first s.buffer s.position).take (s.position - k) = first s.buffer (s.position - k) := by
      unfold first
      rw [← List.map_take, List.take_range, Nat.min_eq_left (by omega)]
    have hd : (first s.buffer s.position).drop (s.position - k)
        = (List.range k).map (fun i => s.buffer (s.position - k + i)) := by
      have := drop_first s.buffer (s.position - k) k
      rw [← hsplit2] at this
      exact this
    rw [ht, hd]
    congr 1
    · unfold first
      apply List.map_congr_left
      intro i hi
      rw [List.mem_range] at hi
      rw [hbuf, if_neg (by omega), if_neg (by omega)]
    · congr 1
      · have hr : List.range 1 = [0] := rfl
        rw [hr, List.map_cons, List.map_nil, hbuf, if_pos (by omega)]
      · rw [List.map_map]
        apply List.map_congr_left
        intro i hi
        rw [List.mem_range] at hi
        simp only [Function.comp]
        rw [hbuf, if_neg (by omega), if_pos (by omega)]
        congr 1
        omega
  · intro i hi
    obtain ⟨c1, c2⟩ := copy_backward_apply k s.buffer s.position hk'
    unfold Serializer.InsertNullByte
    rw [if_neg (by omega)]
    simp only [Serializer.CommitWriteN, store_apply, c1, c2]
    rw [if_neg (by omega), if_neg (by omega)]

/-- Witness for C16: inserting before the last two of the bytes `01 02 03 04`
gives `01 02 00 03 04`. -/
theorem InsertNullByte_shifts_tail_witness :
    first (Serializer.InsertNullByte
        (Serializer.WriteNSpan ⟨0, 0, fun _ => 0xaa⟩ [1, 2, 3, 4]).2 2).2.buffer (4 + 1)
      = [1, 2, 0, 3, 4] :=
  ((InsertNullByte_shifts_tail (Serializer.WriteNSpan ⟨0, 0, fun _ => 0xaa⟩ [1, 2, 3, 4]).2 2).1
    (by decide) (by decide)).2.2.2.1

/-! ### The mpint encoding is canonical -/

theorem beNat_lt_pow (l : List Nat) (hl : IsBytes l) : beNat l < 256 ^ l.length := by
  induction l with
  | nil => simp [beNat]
  | cons b bs ih =>
    have hb : b < 256 := hl b (List.mem_cons_self _ _)
    have hbs := ih (fun c hc => hl c (List.mem_cons_of_mem _ hc))
    have hm : (b + 1) * 256 ^ bs.length ≤ 256 * 256 ^ bs.length :=
      Nat.mul_le_mul_right _ (by omega)
    rw [beNat, List.length_cons, Nat.pow_succ, Nat.mul_comm (256 ^ bs.length) 256]
    rw [Nat.add_mul, Nat.one_mul] at hm
    omega

theorem pow_le_beNat (b : Nat) (bs : List Nat) (hb : b ≠ 0) :
    256 ^ bs.length ≤ beNat (b :: bs) := by
  have hm : 1 * 256 ^ bs.length ≤ b * 256 ^ bs.length := Nat.mul_le_mul_right _ (by omega)
  rw [Nat.one_mul] at hm
  rw [beNat]
  omega

theorem stripZeros_head_ne (src : List Nat) (b : Nat) (rest : List Nat)
    (h : stripZeros src = b :: rest) : b ≠ 0 := by
  induction src with
  | nil => cases h
  | cons c cs ih =>
    by_cases hc : c = 0
    · have : stripZeros (c :: cs) = stripZeros cs := by simp [stripZeros, hc]
      rw [this] at h
      exact ih h
    · have : stripZeros (c :: cs) = c :: cs := by simp [stripZeros, hc]
      rw [this] at h
      cases h
      exact hc

theorem stripZeros_cons_ne (b : Nat) (rest : List Nat) (hb : b ≠ 0) :
    stripZeros (b :: rest) = b :: rest := by
  simp [stripZeros, hb]

theorem eq_of_beNat_eq (t1 t2 : List Nat) (h1 : IsBytes t1) (h2 : IsBytes t2)
    (hlen : t1.length = t2.length) (hv : beNat t1 = beNat t2) : t1 = t2 := by
  induction t1 generalizing t2 with
  | nil =>
    cases t2 with
    | nil => rfl
    | cons _ _ => cases hlen
  | cons b bs ih =>
    cases t2 with
    | nil => cases hlen
    | cons c cs =>
      simp only [List.length_cons, Nat.add_right_cancel_iff] at hlen
      have hbs : IsBytes bs := fun x hx => h1 x (List.mem_cons_of_mem _ hx)
      have hcs : IsBytes cs := fun x hx => h2 x (List.mem_cons_of_mem _ hx)
      have l1 := beNat_lt_pow bs hbs
      have l2 := beNat_lt_pow cs hcs
      rw [beNat, beNat, hlen] at hv
      rw [hlen] at l1
      have hbc : b = c := by
        rcases Nat.lt_trichotomy b c with hlt | heq | hgt
        · have hm : (b + 1) * 256 ^ cs.length ≤ c * 256 ^ cs.length :=
            Nat.mul_le_mul_right _ (by omega)
          rw [Nat.add_mul, Nat.one_mul] at hm
          omega
        · exact heq
        · have hm : (c + 1) * 256 ^ cs.length ≤ b * 256 ^ cs.length :=
            Nat.mul_le_mul_right _ (by omega)
          rw [Nat.add_mul, Nat.one_mul] at hm
          omega
      subst hbc
      have hr : beNat bs = beNat cs := by omega
      rw [ih cs hbs hcs hlen hr]

theorem length_le_of_beNat_le (t1 t2 : List Nat) (h2 : IsBytes t2)
    (hz : ∀ b rest, t1 = b :: rest → b ≠ 0) (hv : beNat t1 ≤ beNat t2) :
    t1.length ≤ t2.length := by
  cases t1 with
  | nil => exact Nat.zero_le _
  | cons b bs =>
    by_contra hc
    have hlt : t2.length ≤ bs.length := by
      rw [List.length_cons] at hc
      omega
    have l1 := pow_le_beNat b bs (hz b bs rfl)
    have l2 := beNat_lt_pow t2 h2
    have l3 : 256 ^ t2.length ≤ 256 ^ bs.length := Nat.pow_le_pow_right (by omega) hlt
    omega

theorem stripZeros_eq_of_beNat_eq (src1 src2 : List Nat) (h1 : IsBytes src1)
    (h2 : IsBytes src2) (hv : beNat src1 = beNat src2) : stripZeros src1 = stripZeros src2 := by
  have b1 := IsBytes_stripZeros src1 h1
  have b2 := IsBytes_stripZeros src2 h2
  have hv' : beNat (stripZeros src1) = beNat (stripZeros src2) := by
    rw [beNat_stripZeros, beNat_stripZeros, hv]
  apply eq_of_beNat_eq _ _ b1 b2 _ hv'
  apply Nat.le_antisymm
  · exact length_le_of_beNat_le _ _ b2 (stripZeros_head_ne src1) (by omega)
  · exact length_le_of_beNat_le _ _ b1 (stripZeros_head_ne src2) (by omega)

theorem WriteBignum2_congr (s : Serializer) (src1 src2 : List Nat)
    (h : stripZeros src1 = stripZeros src2) : s.WriteBignum2 src1 = s.WriteBignum2 src2 := by
  unfold Serializer.WriteBignum2
  simp only [Serializer.skipLeadingZeroes_eq, h]

theorem stripZeros_signPad (t : List Nat) (ht : ∀ b rest, t = b :: rest → b ≠ 0) :
    stripZeros (signPad t ++ t) = t := by
  cases t with
  | nil => rfl
  | cons b rest =>
    have hb := ht b rest rfl
    by_cases h : highBit b = true
    · simp only [signPad, h, if_true, List.singleton_append]
      have : stripZeros (0 :: b :: rest) = stripZeros (b :: rest) := by simp [stripZeros]
      rw [this, stripZeros_cons_ne b rest hb]
    · simp only [signPad, h, Bool.false_eq_true, if_false, List.nil_append]
      exact stripZeros_cons_ne b rest hb

/-- Claim C14: the mpint encoding is canonical.  For byte sequences that
denote the same unsigned big-endian integer `WriteBignum2` does the same;
the body of a written mpint never starts with a byte whose high bit is set,
starts with `0x00` only when the next byte has its high bit set, and is
empty for the value zero; and writing the body again gives the same output. -/
theorem WriteBignum2_canonical (s : Serializer) (src1 src2 : List Nat)
    (h1 : IsBytes src1) (h2 : IsBytes src2) (hp : s.position ≤ MAX_PACKET_SIZE) :
    (beNat src1 = beNat src2 → s.WriteBignum2 src1 = s.WriteBignum2 src2) ∧
    ((s.WriteBignum2 src1).1 = Except.ok () →
      (∀ b rest, ((s.WriteBignum2 src1).2.Since s.position).drop 4 = b :: rest →
        b < 128 ∧ (b = 0 → ∃ c rest', rest = c :: rest' ∧ 128 ≤ c)) ∧
      (beNat src1 = 0 → ((s.WriteBignum2 src1).2.Since s.position).drop 4 = []) ∧
      s.WriteBignum2 (((s.WriteBignum2 src1).2.Since s.position).drop 4)
        = s.WriteBignum2 src1) := by
  refine ⟨fun hv => WriteBignum2_congr s src1 src2 (stripZeros_eq_of_beNat_eq src1 src2 h1 h2 hv),
    fun hok => ?_⟩
  have hfit : s.position + (mpint src1).length ≤ MAX_PACKET_SIZE := by
    by_contra hc
    rw [Serializer.WriteBignum2_error s src1 hp (by omega)] at hok
    cases hok
  have hw := Serializer.WriteBignum2_push s src1 hfit
  have hbody : ((s.WriteBignum2 src1).2.Since s.position).drop 4
      = signPad (stripZeros src1) ++ stripZeros src1 := by
    rw [hw]
    simp only []
    rw [(Appended_push s (mpint src1)).2.2.1, mpint, List.append_assoc]
    exact List.drop_left' (BE32_length _)
  have hne := stripZeros_head_ne src1
  have hbytes := IsBytes_stripZeros src1 h1
  refine ⟨?_, ?_, ?_⟩
  · intro b rest hb
    rw [hbody] at hb
    cases ht : stripZeros src1 with
    | nil =>
      rw [ht] at hb
      cases hb
    | cons c cs =>
      rw [ht] at hb
      have hc : c < 256 := hbytes c (by rw [ht]; exact List.mem_cons_self _ _)
      have hcne : c ≠ 0 := hne c cs ht
      by_cases hh : highBit c = true
      · simp only [signPad, hh, if_true, List.singleton_append, List.cons.injEq] at hb
        obtain ⟨hb0, hrest⟩ := hb
        subst hb0
        refine ⟨by omega, fun _ => ⟨c, cs, hrest.symm, ?_⟩⟩
        simp only [highBit, beq_iff_eq] at hh
        omega
      · simp only [signPad, hh, Bool.false_eq_true, if_false, List.nil_append,
          List.cons.injEq] at hb
        obtain ⟨hb0, _⟩ := hb
        subst hb0
        simp only [highBit, beq_iff_eq] at hh
        exact ⟨by omega, fun h0 => absurd h0 hcne⟩
  · intro hz
    rw [hbody]
    cases ht : stripZeros src1 with
    | nil => rfl
    | cons c cs =>
      have := pow_le_beNat c cs (hne c cs ht)
      rw [← ht, beNat_stripZeros, hz] at this
      have hpos : 0 < 256 ^ cs.length := Nat.pos_pow_of_pos _ (by omega)
      omega
  · apply WriteBignum2_congr
    rw [hbody, stripZeros_signPad _ hne]

/-- Witness for C14: `00 00 80 01` and `80 01` denote the same integer and
are written identically, as `00 00 00 03 00 80 01`. -/
theorem WriteBignum2_canonical_witness :
    Serializer.WriteBignum2 ⟨0, 0, fun _ => 0⟩ [0, 0, 0x80, 1]
      = Serializer.WriteBignum2 ⟨0, 0, fun _ => 0⟩ [0x80, 1] ∧
    ((Serializer.WriteBignum2 ⟨0, 0, fun _ => 0⟩ [0, 0, 0x80, 1]).2.Since 0).drop 4
      = [0, 0x80, 1] :=
  ⟨(WriteBignum2_canonical ⟨0, 0, fun _ => 0⟩ [0, 0, 0x80, 1] [0x80, 1] (by decide) (by decide)
      (by decide)).1 (by decide), by decide⟩

end SSH
